import Mathlib

/-! xv6 boot loader and multiprocessor bring-up.

A shallow embedding of `bootmain.c` (`bootmain`, `waitdisk`, `readsect`,
`readseg`) and of the parts of `main.c` that start the other processors
(`startothers`, `entrypgdir`), followed by the theorems that settle the
statements of the specification against this embedding.

Machine words are natural numbers kept modulo `2^32`; physical memory is a map
from byte addresses to bytes; the IDE disk is a small device automaton driven
through port reads and writes; every `while`/`for` loop of the source is a
recursion on a fuel argument that yields `none` when the fuel runs out.
-/

namespace Xv6

/-! ## Words, memory, events -/

/-- Number of values of a 32-bit word (`uint`, pointers): `2^32`. -/
abbrev WORD : Nat := 4294967296

/-- Sector size, `#define SECTSIZE 512` of bootmain.c. -/
abbrev SECTSIZE : Nat := 512

/-- Physical memory: the byte stored at each address. -/
abbrev Mem := Nat → Nat

/-- Observable actions of the boot loader, in program order. -/
inductive Event where
  | inb (port val : Nat)
  | outb (port val : Nat)
  | insl (port dst cnt : Nat)
  | stosb (dst data cnt : Nat)
  | readsect (dst sector : Nat)
  | jump (entry : Nat)
deriving DecidableEq, Repr

/-- Store one byte (the value is cut to 8 bits, the address to 32 bits). -/
def Mem.store8 (m : Mem) (a v : Nat) : Mem :=
  fun x => if x = a % WORD then v % 256 else m x

/-- Store a 32-bit word in little-endian byte order. -/
def Mem.store32 (m : Mem) (a w : Nat) : Mem :=
  (((m.store8 a w).store8 (a + 1) (w / 256)).store8 (a + 2) (w / 65536)).store8 (a + 3)
    (w / 16777216)

/-- Load one byte. -/
def rd8 (m : Mem) (a : Nat) : Nat := m (a % WORD) % 256

/-- Load a little-endian 16-bit value (`ushort`). -/
def rd16 (m : Mem) (a : Nat) : Nat := rd8 m a + 256 * rd8 m (a + 1)

/-- Load a little-endian 32-bit value (`uint`). -/
def rd32 (m : Mem) (a : Nat) : Nat :=
  rd8 m a + 256 * rd8 m (a + 1) + 65536 * rd8 m (a + 2) + 16777216 * rd8 m (a + 3)

/-! ## The IDE disk behind ports 0x1F0..0x1F7 -/

/-- The disk controller as the boot loader sees it. `image` is the content of
the disk by byte position (sector `k` is bytes `512*k .. 512*k+511`); after a
command the status register answers busy for `lag` polls; `busy` counts the
busy answers still to come; `nsect .. drive` are the registers at ports
0x1F2..0x1F6; `cursor` is the disk position of the next byte handed out by the
data port and `left` the number of bytes the controller still holds ready. -/
structure Ide where
  image : Nat → Nat
  lag : Nat
  busy : Nat
  nsect : Nat
  lba0 : Nat
  lba1 : Nat
  lba2 : Nat
  drive : Nat
  cursor : Nat
  left : Nat

/-- The byte of the disk at byte position `a`. -/
def Ide.byteAt (d : Ide) (a : Nat) : Nat := d.image a % 256

/-- The 28-bit sector index held by the four address registers. -/
def Ide.lba (d : Ide) : Nat :=
  d.lba0 + 256 * d.lba1 + 65536 * d.lba2 + 16777216 * (d.drive % 16)

/-- A byte read from a controller port. Port 0x1F7 is the status register:
0x80 (busy) while the controller works, 0x50 (ready) afterwards. -/
def Ide.portRead (d : Ide) (port : Nat) : Nat × Ide :=
  if port = 0x1F7 then
    if 0 < d.busy then (0x80, { d with busy := d.busy - 1 }) else (0x50, d)
  else (0, d)

/-- A byte written to a controller port. Writes are ignored while the
controller is busy. Command 0x20 (read sectors) with the drive register
selecting drive 0 in sector-addressed mode (top nibble 0xE) makes the
addressed sectors available at the data port after `lag` busy polls. -/
def Ide.portWrite (d : Ide) (port val : Nat) : Ide :=
  if 0 < d.busy then d
  else if port = 0x1F2 then { d with nsect := val }
  else if port = 0x1F3 then { d with lba0 := val }
  else if port = 0x1F4 then { d with lba1 := val }
  else if port = 0x1F5 then { d with lba2 := val }
  else if port = 0x1F6 then { d with drive := val }
  else if port = 0x1F7 then
    if val = 0x20 ∧ d.drive / 16 = 0xE then
      { d with busy := d.lag, cursor := SECTSIZE * d.lba,
               left := SECTSIZE * (if d.nsect = 0 then 256 else d.nsect) }
    else d
  else d

/-- A 32-bit word read from a controller port. Port 0x1F0 hands out the next
four bytes of the selected sectors when the controller is ready and holds
them; any other read yields all ones. -/
def Ide.portReadL (d : Ide) (port : Nat) : Nat × Ide :=
  if port = 0x1F0 ∧ d.busy = 0 ∧ 4 ≤ d.left then
    (d.byteAt d.cursor + 256 * d.byteAt (d.cursor + 1) + 65536 * d.byteAt (d.cursor + 2)
        + 16777216 * d.byteAt (d.cursor + 3),
      { d with cursor := d.cursor + 4, left := d.left - 4 })
  else (0xFFFFFFFF, d)

/-! ## Machine state and the primitives of x86.h -/

/-- State of the machine while the boot loader runs. -/
structure Machine where
  mem : Mem
  ide : Ide
  trace : List Event

/-- Modelled from the spec: `inb` of x86.h (inline assembly, not among the
sources) reads one byte from a port. -/
def inb (port : Nat) (s : Machine) : Nat × Machine :=
  let r := s.ide.portRead port
  (r.1, { s with ide := r.2, trace := s.trace ++ [Event.inb port r.1] })

/-- Modelled from the spec: `outb` of x86.h writes one byte (`uchar data`, so
the value is cut to 8 bits) to a port. -/
def outb (port data : Nat) (s : Machine) : Machine :=
  { s with ide := s.ide.portWrite port (data % 256),
           trace := s.trace ++ [Event.outb port (data % 256)] }

/-- The repetition of `rep insl`: `cnt` times, read a 32-bit word from the
port and store it at `addr`, advancing `addr` by four. -/
def inslLoop (port : Nat) : Nat → Nat → Machine → Machine
  | 0, _, s => s
  | cnt + 1, addr, s =>
    let r := s.ide.portReadL port
    inslLoop port cnt ((addr + 4) % WORD) { s with mem := s.mem.store32 addr r.1, ide := r.2 }

/-- Modelled from the spec: `insl` of x86.h (`cld; rep insl`) transfers `cnt`
four-byte words from a port to memory at `addr`. -/
def insl (port addr cnt : Nat) (s : Machine) : Machine :=
  let s1 := inslLoop port cnt addr s
  { s1 with trace := s.trace ++ [Event.insl port addr cnt] }

/-- The repetition of `rep stosb` on memory. -/
def stosbLoop : Nat → Nat → Nat → Mem → Mem
  | 0, _, _, m => m
  | cnt + 1, addr, data, m => stosbLoop cnt ((addr + 1) % WORD) data (m.store8 addr data)

/-- Modelled from the spec: `stosb` of x86.h (`cld; rep stosb`) stores the
byte `data` at `cnt` successive addresses from `addr`. -/
def stosb (addr data cnt : Nat) (s : Machine) : Machine :=
  { s with mem := stosbLoop cnt addr data s.mem,
           trace := s.trace ++ [Event.stosb addr data cnt] }

/-! ## bootmain.c -/

/-- The function `waitdisk`: `while((inb(0x1F7) & 0xC0) != 0x40) ;`. -/
def waitdisk : Nat → Machine → Option Machine
  | 0, _ => none
  | fuel + 1, s =>
    let r := inb 0x1F7 s
    if r.1 &&& 0xC0 ≠ 0x40 then waitdisk fuel r.2 else some r.2

/-- The function `readsect(dst, offset)`: read the single sector `offset` into
`dst`. The first event marks the call with its two arguments. -/
def readsect (fuel dst offset : Nat) (s : Machine) : Option Machine :=
  (waitdisk fuel { s with trace := s.trace ++ [Event.readsect dst offset] }).bind fun s1 =>
    let s2 := outb 0x1F2 1 s1
    let s3 := outb 0x1F3 offset s2
    let s4 := outb 0x1F4 (offset >>> 8) s3
    let s5 := outb 0x1F5 (offset >>> 16) s4
    let s6 := outb 0x1F6 ((offset >>> 24) ||| 0xE0) s5
    let s7 := outb 0x1F7 0x20 s6
    (waitdisk fuel s7).bind fun s8 => some (insl 0x1F0 dst (SECTSIZE / 4) s8)

/-- The loop of `readseg`:
`for(; pa < epa; pa += SECTSIZE, offset++) readsect(pa, offset);`. -/
def readsegLoop : Nat → Nat → Nat → Nat → Machine → Option Machine
  | 0, _, _, _, _ => none
  | fuel + 1, pa, epa, offset, s =>
    if pa < epa then
      (readsect (fuel + 1) pa offset s).bind fun s1 =>
        readsegLoop fuel ((pa + SECTSIZE) % WORD) epa ((offset + 1) % WORD) s1
    else some s

/-- The function `readseg(pa, count, offset)`. -/
def readseg (fuel pa count offset : Nat) (s : Machine) : Option Machine :=
  let epa := (pa + count) % WORD
  let pa1 := (pa + WORD - offset % SECTSIZE) % WORD
  let offset1 := (offset / SECTSIZE + 1) % WORD
  readsegLoop fuel pa1 epa offset1 s

/-- Modelled from the spec: `ELF_MAGIC` of elf.h (not among the sources), the
bytes 7F 45 4C 46 read as a little-endian word. -/
abbrev ELF_MAGIC : Nat := 0x464C457F

/-- Modelled from the spec: the layout of `struct elfhdr` of elf.h (not among
the sources), the ELF32 layout: byte offset of the field `entry`; `magic` is at
offset 0. -/
abbrev elfhdr_entry : Nat := 24

/-- Modelled from the spec: byte offset of the field `phoff` of `struct elfhdr`. -/
abbrev elfhdr_phoff : Nat := 28

/-- Modelled from the spec: byte offset of the field `phnum` (a `ushort`) of
`struct elfhdr`. -/
abbrev elfhdr_phnum : Nat := 44

/-- Modelled from the spec: byte offset of the field `off` of `struct proghdr`
of elf.h (not among the sources), ELF32 layout. -/
abbrev proghdr_off : Nat := 4

/-- Modelled from the spec: byte offset of the field `paddr` of `struct proghdr`. -/
abbrev proghdr_paddr : Nat := 12

/-- Modelled from the spec: byte offset of the field `filesz` of `struct proghdr`. -/
abbrev proghdr_filesz : Nat := 16

/-- Modelled from the spec: byte offset of the field `memsz` of `struct proghdr`. -/
abbrev proghdr_memsz : Nat := 20

/-- Modelled from the spec: `sizeof(struct proghdr)`. -/
abbrev proghdr_size : Nat := 32

/-- How `bootmain` ends: it returns to bootasm.S, or control is in the kernel
at `entry`. -/
inductive Outcome where
  | returned
  | entered (entry : Nat)
deriving DecidableEq, Repr

/-- The segment loop of `bootmain`: `for(; ph < eph; ph++){ ... }`. The fields
`memsz` and `filesz` of the zero-fill are read after `readseg` has run, as in
the source. -/
def phLoop : Nat → Nat → Nat → Machine → Option Machine
  | 0, _, _, _ => none
  | fuel + 1, ph, eph, s =>
    if ph < eph then
      let pa := rd32 s.mem (ph + proghdr_paddr)
      (readseg (fuel + 1) pa (rd32 s.mem (ph + proghdr_filesz))
          (rd32 s.mem (ph + proghdr_off)) s).bind fun s1 =>
        let s2 :=
          if rd32 s1.mem (ph + proghdr_memsz) > rd32 s1.mem (ph + proghdr_filesz) then
            stosb ((pa + rd32 s1.mem (ph + proghdr_filesz)) % WORD) 0
              (rd32 s1.mem (ph + proghdr_memsz) - rd32 s1.mem (ph + proghdr_filesz)) s1
          else s1
        phLoop fuel ((ph + proghdr_size) % WORD) eph s2
    else some s

/-- The function `bootmain`. -/
def bootmain (fuel : Nat) (s : Machine) : Option (Outcome × Machine) :=
  let elf := 0x10000
  (readseg fuel elf 4096 0 s).bind fun s1 =>
    if rd32 s1.mem elf ≠ ELF_MAGIC then some (Outcome.returned, s1)
    else
      let ph := (elf + rd32 s1.mem (elf + elfhdr_phoff)) % WORD
      let eph := (ph + proghdr_size * rd16 s1.mem (elf + elfhdr_phnum)) % WORD
      (phLoop fuel ph eph s1).bind fun s2 =>
        let entry := rd32 s2.mem (elf + elfhdr_entry)
        some (Outcome.entered entry, { s2 with trace := s2.trace ++ [Event.jump entry] })

/-! ## main.c: the entry page directory -/

/-- Modelled from the spec: `NPDENTRIES` of mmu.h (not among the sources), the
1024 slots of a page directory. -/
abbrev NPDENTRIES : Nat := 1024

/-- Modelled from the spec: `PDXSHIFT` of mmu.h, the position of the page
directory index in an address (a slot maps 4 MB). -/
abbrev PDXSHIFT : Nat := 22

/-- Modelled from the spec: `KERNBASE` of memlayout.h (not among the sources),
the first kernel virtual address. -/
abbrev KERNBASE : Nat := 0x80000000

/-- Modelled from the spec: `PTE_P` of mmu.h, the present bit. -/
abbrev PTE_P : Nat := 0x001

/-- Modelled from the spec: `PTE_W` of mmu.h, the writeable bit. -/
abbrev PTE_W : Nat := 0x002

/-- Modelled from the spec: `PTE_PS` of mmu.h, the page-size bit (4 MB page). -/
abbrev PTE_PS : Nat := 0x080

/-- Modelled from the spec: `KSTACKSIZE` of param.h (not among the sources),
the size of a kernel stack. -/
abbrev KSTACKSIZE : Nat := 4096

/-- Modelled from the spec: the conversion `P2V` of memlayout.h, physical to
kernel virtual address. -/
def P2V (a : Nat) : Nat := (a + KERNBASE) % WORD

/-- Modelled from the spec: the conversion `V2P` of memlayout.h, kernel
virtual to physical address. -/
def V2P (a : Nat) : Nat := (a + WORD - KERNBASE) % WORD

/-- The static table `entrypgdir[NPDENTRIES]` of main.c: every slot is zero
except the two with a designated initialiser, `[0]` and
`[KERNBASE>>PDXSHIFT]`. -/
def entrypgdir : List Nat :=
  ((List.replicate NPDENTRIES 0).set 0 ((0) ||| PTE_P ||| PTE_W ||| PTE_PS)).set
    (KERNBASE >>> PDXSHIFT) ((0) ||| PTE_P ||| PTE_W ||| PTE_PS)

/-! ## main.c: starting the other processors -/

/-- What `startothers` does that other code or other processors can observe,
in program order. -/
inductive KEvent where
  | memmove (dst src n : Nat)
  | kalloc (ret : Nat)
  | store (addr val : Nat)
  | startap (apicid addr : Nat)
  | poll (cpu val : Nat)
deriving DecidableEq, Repr

/-- The platform around `startothers`: the processor table `cpus` (the
`apicid` of each descriptor in table order, `ncpu` is its length), the index
`self` of the descriptor that `mycpu()` returns, the link-time symbols, the
result of the `n`-th call of `kalloc`, and for each `apicid` the number of
reads of its started flag that still see 0 after the processor is signalled. -/
structure Platform where
  cpus : List Nat
  self : Nat
  entryother_start : Nat
  entryother_size : Nat
  mpenter : Nat
  entrypgdir : Nat
  kalloc : Nat → Nat
  delay : Nat → Nat

/-- The state `startothers` works on: the started flag of each descriptor, for
each descriptor whether its processor has been signalled and how many reads of
the flag remain before it sets it, the number of `kalloc` calls so far, and
the events so far. -/
structure Kernel where
  started : Nat → Nat
  wake : Nat → Option Nat
  nalloc : Nat
  trace : List KEvent

/-- The kernel when `startothers` is called: no flag set, no processor
signalled. -/
def bootKernel : Kernel :=
  { started := fun _ => 0, wake := fun _ => none, nalloc := 0, trace := [] }

/-- The `apicid` of descriptor `c`. -/
def Platform.apicid (p : Platform) (c : Nat) : Nat := p.cpus.getD c 0

/-- Modelled from the spec: `memmove` (string.c, not among the sources). -/
def memmove (dst src n : Nat) (k : Kernel) : Kernel :=
  { k with trace := k.trace ++ [KEvent.memmove dst src n] }

/-- Modelled from the spec: `kalloc` (kalloc.c, not among the sources) returns
a fresh page. -/
def kalloc (p : Platform) (k : Kernel) : Nat × Kernel :=
  (p.kalloc k.nalloc,
    { k with nalloc := k.nalloc + 1, trace := k.trace ++ [KEvent.kalloc (p.kalloc k.nalloc)] })

/-- A store of a 32-bit word through a pointer. -/
def store (addr val : Nat) (k : Kernel) : Kernel :=
  { k with trace := k.trace ++ [KEvent.store addr val] }

/-- Modelled from the spec: `lapicstartap(apicid, addr)` (lapic.c, not among
the sources) signals the processor with that `apicid` to start at `addr`; the
processor then runs on its own and sets the started flag of its descriptor
after `delay` further reads of the flag. -/
def lapicstartap (p : Platform) (apicid addr : Nat) (k : Kernel) : Kernel :=
  { k with wake := fun c =>
             if c < p.cpus.length ∧ p.apicid c = apicid then some (p.delay apicid)
             else k.wake c,
           trace := k.trace ++ [KEvent.startap apicid addr] }

/-- A read of `c->started`. The other processors move first: if the processor
of descriptor `c` was signalled and its delay has run out it sets the flag
(`xchg(&(mycpu()->started), 1)` in `mpmain`). -/
def readStarted (c : Nat) (k : Kernel) : Nat × Kernel :=
  let k1 : Kernel :=
    match k.wake c with
    | some 0 => { k with started := Function.update k.started c 1,
                         wake := Function.update k.wake c none }
    | some (n + 1) => { k with wake := Function.update k.wake c (some n) }
    | none => k
  (k1.started c, { k1 with trace := k1.trace ++ [KEvent.poll c (k1.started c)] })

/-- The wait of `startothers`: `while(c->started == 0) ;`. -/
def waitStarted (c : Nat) : Nat → Kernel → Option Kernel
  | 0, _ => none
  | fuel + 1, k =>
    let r := readStarted c k
    if r.1 = 0 then waitStarted c fuel r.2 else some r.2

/-- The loop of `startothers`: `for(c = cpus; c < cpus+ncpu; c++){ ... }`, with
`c` the index of the descriptor and `code = P2V(0x7000)`. -/
def startLoop (p : Platform) (code : Nat) : Nat → Nat → Kernel → Option Kernel
  | 0, _, _ => none
  | fuel + 1, c, k =>
    if c < p.cpus.length then
      if c = p.self then startLoop p code fuel (c + 1) k
      else
        let r := kalloc p k
        let k2 := store ((code + WORD - 4) % WORD) ((r.1 + KSTACKSIZE) % WORD) r.2
        let k3 := store ((code + WORD - 8) % WORD) p.mpenter k2
        let k4 := store ((code + WORD - 12) % WORD) (V2P p.entrypgdir) k3
        let k5 := lapicstartap p (p.apicid c) (V2P code) k4
        (waitStarted c (fuel + 1) k5).bind fun k6 => startLoop p code fuel (c + 1) k6
    else some k

/-- The function `startothers`. -/
def startothers (p : Platform) (fuel : Nat) (k : Kernel) : Option Kernel :=
  let code := P2V 0x7000
  startLoop p code fuel 0 (memmove code p.entryother_start p.entryother_size k)

/-- The events of bringing up descriptor `c` as the `n`-th launch: the stack
allocation, the three parameter words below the entry code, the startup
signal, then the reads of the started flag, all 0 but the last. -/
def launchTrace (p : Platform) (c n : Nat) : List KEvent :=
  [KEvent.kalloc (p.kalloc n),
   KEvent.store 0x80006FFC ((p.kalloc n + KSTACKSIZE) % WORD),
   KEvent.store 0x80006FF8 p.mpenter,
   KEvent.store 0x80006FF4 (V2P p.entrypgdir),
   KEvent.startap (p.apicid c) 0x7000] ++
    List.replicate (p.delay (p.apicid c)) (KEvent.poll c 0) ++ [KEvent.poll c 1]

/-- The events of bringing up the descriptors `cs` in order, the first one as
the `n`-th launch. -/
def launchAllTrace (p : Platform) : List Nat → Nat → List KEvent
  | [], _ => []
  | c :: t, n => launchTrace p c n ++ launchAllTrace p t (n + 1)

/-- The descriptors other than `self` among `c, c+1, .., c+m-1`, in table
order. -/
def othersFrom (p : Platform) : Nat → Nat → List Nat
  | 0, _ => []
  | m + 1, c => if c = p.self then othersFrom p m (c + 1) else c :: othersFrom p m (c + 1)

/-- The startup signals in a trace, as pairs (apicid, start address). -/
def launches (t : List KEvent) : List (Nat × Nat) :=
  t.filterMap fun e => match e with
    | KEvent.startap a addr => some (a, addr)
    | _ => none

/-- The kernel after descriptor `c` has been brought up. -/
def launchPost (p : Platform) (c : Nat) (k : Kernel) : Kernel :=
  { started := Function.update k.started c 1,
    wake := Function.update
      (fun j => if j < p.cpus.length ∧ p.apicid j = p.apicid c then some (p.delay (p.apicid c))
                else k.wake j) c none,
    nalloc := k.nalloc + 1,
    trace := k.trace ++ launchTrace p c k.nalloc }

/-- The kernel after the descriptors `cs` have been brought up in order. -/
def launchAllPost (p : Platform) : List Nat → Kernel → Kernel
  | [], k => k
  | c :: t, k => launchAllPost p t (launchPost p c k)

/-- A platform for the worked example: four processors, `self` is the first,
the others need 1, 0 and 3 reads of their flag before it is set. -/
def quadPlatform : Platform :=
  { cpus := [0, 1, 2, 3], self := 0, entryother_start := 0x8010A000, entryother_size := 0x8A,
    mpenter := 0x80103000, entrypgdir := 0x8010B000, kalloc := fun n => 0x803FF000 - 4096 * n,
    delay := fun a => (3 * (a + 2)) % 4 }

/-! ## Closed forms used to state the results -/

/-- The status polls of one `waitdisk` that starts with `b` busy answers
pending: `b` answers 0x80, then the answer 0x50 that ends the wait. -/
def polls (b : Nat) : List Event :=
  List.replicate b (Event.inb 0x1F7 0x80) ++ [Event.inb 0x1F7 0x50]

/-- The events of one call `readsect(dst, sec)` on a controller with `b` busy
answers pending and `lag` busy answers after a command. -/
def sectTrace (b lag dst sec : Nat) : List Event :=
  [Event.readsect dst sec] ++ polls b ++
    [Event.outb 0x1F2 1, Event.outb 0x1F3 (sec % 256), Event.outb 0x1F4 ((sec >>> 8) % 256),
     Event.outb 0x1F5 ((sec >>> 16) % 256), Event.outb 0x1F6 (((sec >>> 24) ||| 0xE0) % 256),
     Event.outb 0x1F7 0x20] ++ polls lag ++ [Event.insl 0x1F0 dst 128]

/-- The machine after one call `readsect(dst, sec)`. -/
def sectPost (dst sec : Nat) (s : Machine) : Machine :=
  { mem := fun x =>
      if dst ≤ x ∧ x < dst + 512 then s.ide.byteAt (512 * sec + (x - dst)) else s.mem x,
    ide := { s.ide with busy := 0, nsect := 1, lba0 := sec % 256, lba1 := (sec >>> 8) % 256,
                        lba2 := (sec >>> 16) % 256, drive := ((sec >>> 24) ||| 0xE0) % 256,
                        cursor := 512 * sec + 512, left := 0 },
    trace := s.trace ++ sectTrace s.ide.busy s.ide.lag dst sec }

/-- The machine after `n` successive sector reads to `p, p+512, ...` of the
sectors `sec, sec+1, ...`. -/
def segPost : Nat → Nat → Nat → Machine → Machine
  | 0, _, _, s => s
  | n + 1, p, sec, s => segPost n (p + 512) (sec + 1) (sectPost p sec s)

/-- The events of `n` successive sector reads to `p, p+512, ...` of the sectors
`sec, sec+1, ...`; the controller has `b` busy answers pending at the start. -/
def segTrace : Nat → Nat → Nat → Nat → Nat → List Event
  | 0, _, _, _, _ => []
  | n + 1, b, lag, p, sec => sectTrace b lag p sec ++ segTrace n 0 lag (p + 512) (sec + 1)

/-- The calls of `readsect` in a trace, as pairs (destination, sector). -/
def readsectCalls (t : List Event) : List (Nat × Nat) :=
  t.filterMap fun e => match e with
    | Event.readsect dst sec => some (dst, sec)
    | _ => none

/-- The bytes written to the controller ports in a trace, as pairs
(port, value). -/
def portWrites (t : List Event) : List (Nat × Nat) :=
  t.filterMap fun e => match e with
    | Event.outb port val => some (port, val)
    | _ => none

/-- The block transfers from a port to memory in a trace, as triples
(port, destination, count of words). -/
def transfers (t : List Event) : List (Nat × Nat × Nat) :=
  t.filterMap fun e => match e with
    | Event.insl port dst cnt => some (port, dst, cnt)
    | _ => none

/-- The fills (`stosb`) in a trace, as triples (destination, byte, count). -/
def fills (t : List Event) : List (Nat × Nat × Nat) :=
  t.filterMap fun e => match e with
    | Event.stosb dst data cnt => some (dst, data, cnt)
    | _ => none

/-- The control transfers in a trace. -/
def jumps (t : List Event) : List Nat :=
  t.filterMap fun e => match e with
    | Event.jump entry => some entry
    | _ => none

/-- The events that a run from `s` to `s1` added to the trace. -/
def newEvents (s s1 : Machine) : List Event := s1.trace.drop s.trace.length

/-- The number of sectors that cover `count` bytes from byte `offset` of the
image: the ceiling of `(offset mod 512 + count) / 512`. -/
def sectorsNeeded (count offset : Nat) : Nat := (offset % SECTSIZE + count + 511) / 512

/-- The first destination of the sector loop of `readseg(pa, count, offset)`:
`pa -= offset % SECTSIZE` in 32-bit arithmetic. -/
def segStart (pa offset : Nat) : Nat := (pa + WORD - offset % SECTSIZE) % WORD

/-- The end pointer `epa = pa + count` of `readseg` in 32-bit arithmetic. -/
def segEnd (pa count : Nat) : Nat := (pa + count) % WORD

/-- The number of sectors `readseg(pa, count, offset)` reads when its loop
comes to an end: the 512-byte steps from `segStart` needed to reach `segEnd`. -/
def segSectors (pa count offset : Nat) : Nat :=
  (segEnd pa count - segStart pa offset + 511) / 512

/-- The memory after `stosb(addr, data, cnt)`. -/
def fillMem (addr data cnt : Nat) (m : Mem) : Mem :=
  fun x => if x < WORD ∧ (x + WORD - addr % WORD) % WORD < cnt then data % 256 else m x

/-- The fields of a program header that `bootmain` uses. -/
structure Hdr where
  off : Nat
  paddr : Nat
  filesz : Nat
  memsz : Nat
deriving DecidableEq, Repr

/-- The program header stored at address `ph` of a memory. -/
def hdrAt (m : Mem) (ph : Nat) : Hdr :=
  { off := rd32 m (ph + proghdr_off), paddr := rd32 m (ph + proghdr_paddr),
    filesz := rd32 m (ph + proghdr_filesz), memsz := rd32 m (ph + proghdr_memsz) }

/-- The kernel image on a disk, as a byte map: the image starts at sector 1, so
its byte `k` is disk byte `512 + k`. -/
def kernelImage (img : Nat → Nat) : Mem := fun k => img (512 + k) % 256

/-- The field `magic` of the ELF header of the image. -/
def imageMagic (img : Nat → Nat) : Nat := rd32 (kernelImage img) 0

/-- The field `entry` of the ELF header of the image. -/
def imageEntry (img : Nat → Nat) : Nat := rd32 (kernelImage img) elfhdr_entry

/-- The field `phoff` of the ELF header of the image. -/
def imagePhoff (img : Nat → Nat) : Nat := rd32 (kernelImage img) elfhdr_phoff

/-- The field `phnum` of the ELF header of the image. -/
def imagePhnum (img : Nat → Nat) : Nat := rd16 (kernelImage img) elfhdr_phnum

/-- The program headers of the image, in table order. -/
def imageHdrs (img : Nat → Nat) : List Hdr :=
  (List.range (imagePhnum img)).map fun k =>
    hdrAt (kernelImage img) (imagePhoff img + proghdr_size * k)

/-- The staging buffer `[0x10000, 0x11000)` of a memory holds the first 4096
bytes of the image. -/
def Staged (img : Nat → Nat) (m : Mem) : Prop :=
  ∀ x, 0x10000 ≤ x → x < 0x11000 → m x = img (512 + (x - 0x10000)) % 256

/-- The sector loop of `readseg` for the header ends: stepping by 512 from its
first destination reaches the end pointer below `2^32`. (When the step wraps
around `2^32` the loop never ends and writes to every address.) -/
def Hdr.ends (h : Hdr) : Prop :=
  segStart h.paddr h.off + 512 * segSectors h.paddr h.filesz h.off < WORD

/-- Address `x` is written when the header is loaded: it lies in one of the
whole sectors read by `readseg`, or in the zero-fill of `stosb`. -/
def Hdr.writes (h : Hdr) (x : Nat) : Prop :=
  (segStart h.paddr h.off ≤ x ∧
    x < segStart h.paddr h.off + 512 * segSectors h.paddr h.filesz h.off) ∨
  (h.filesz < h.memsz ∧ x < WORD ∧
    (x + WORD - (h.paddr + h.filesz) % WORD) % WORD < h.memsz - h.filesz)

/-- Loading the header does not overwrite the staging buffer: its sector
loop ends and none of its writes falls in `[0x10000, 0x11000)`. -/
def Hdr.spares (h : Hdr) : Prop :=
  h.ends ∧ ∀ x, 0x10000 ≤ x → x < 0x11000 → ¬ h.writes x

/-- The machine after the body of the segment loop of `bootmain` has run for
a header with the fields `h`. -/
def loadPost (h : Hdr) (s : Machine) : Machine :=
  let s1 := segPost (segSectors h.paddr h.filesz h.off) (segStart h.paddr h.off)
    (h.off / 512 + 1) s
  if h.memsz > h.filesz then
    stosb ((h.paddr + h.filesz) % WORD) 0 (h.memsz - h.filesz) s1
  else s1

/-- The machine after the segment loop has run for the headers `hs` in order. -/
def loadAll : List Hdr → Machine → Machine
  | [], s => s
  | h :: t, s => loadAll t (loadPost h s)

/-- The events of loading one header on a ready controller. -/
def loadTrace (h : Hdr) (lag : Nat) : List Event :=
  segTrace (segSectors h.paddr h.filesz h.off) 0 lag (segStart h.paddr h.off) (h.off / 512 + 1)
    ++ (if h.memsz > h.filesz then
          [Event.stosb ((h.paddr + h.filesz) % WORD) 0 (h.memsz - h.filesz)]
        else [])

/-- The events of loading the headers `hs` in order. -/
def loadAllTrace : List Hdr → Nat → List Event
  | [], _ => []
  | h :: t, lag => loadTrace h lag ++ loadAllTrace t lag

/-- The destination range `[paddr, paddr + memsz)` of a header. -/
def Hdr.covers (h : Hdr) (x : Nat) : Prop := h.paddr ≤ x ∧ x < h.paddr + h.memsz

/-- A memory holds the segment of a header: the `filesz` bytes of the image
from offset `off` at `paddr`, then zeros up to `memsz`. -/
def Loaded (img : Nat → Nat) (m : Mem) (h : Hdr) : Prop :=
  (∀ i, i < h.filesz → m (h.paddr + i) = img (512 + h.off + i) % 256) ∧
  (∀ j, h.filesz ≤ j → j < h.memsz → m (h.paddr + j) = 0)

/-- Without address wrap-around, address `x` is written when the header is
loaded: it lies in the whole sectors `[paddr - m, paddr - m + 512*n)` read by
`readseg` (`m = off mod 512`, `n` the sectors needed for `filesz` bytes), or in
the zero-fill `[paddr + filesz, paddr + memsz)`. -/
def Hdr.touches (h : Hdr) (x : Nat) : Prop :=
  (h.paddr - h.off % 512 ≤ x ∧
    x < h.paddr - h.off % 512 + 512 * sectorsNeeded h.filesz h.off) ∨
  (h.paddr + h.filesz ≤ x ∧ x < h.paddr + h.memsz)

/-- The program headers are well-formed in the sense of the specification:
`memsz ≥ filesz`, destination ranges disjoint from the staging buffer,
non-overlapping and listed in increasing address order. -/
def WellFormed (hs : List Hdr) : Prop :=
  (∀ h ∈ hs, h.filesz ≤ h.memsz ∧ (h.paddr + h.memsz ≤ 0x10000 ∨ 0x11000 ≤ h.paddr)) ∧
  hs.Pairwise (fun a b => a.paddr + a.memsz ≤ b.paddr)

/-- The four bytes of a 32-bit word, least significant first. -/
def le32 (v : Nat) : List Nat := [v % 256, v / 256 % 256, v / 65536 % 256, v / 16777216 % 256]

/-- The bytes of a table of program headers (ELF32: type, off, vaddr, paddr,
filesz, memsz, flags, align). -/
def phBytes : List Hdr → List Nat
  | [] => []
  | h :: t =>
    le32 1 ++ le32 h.off ++ le32 h.paddr ++ le32 h.paddr ++ le32 h.filesz ++ le32 h.memsz ++
      le32 7 ++ le32 4096 ++ phBytes t

/-- The 52 bytes of an ELF32 header with the given magic, entry, phoff and
phnum; the fields that `bootmain` does not read are zero. -/
def ehBytes (magic entry phoff phnum : Nat) : List Nat :=
  le32 magic ++ List.replicate 20 0 ++ le32 entry ++ le32 phoff ++ List.replicate 12 0 ++
    [phnum % 256, phnum / 256 % 256] ++ List.replicate 6 0

/-- A disk for the worked examples: a zero boot sector, then a kernel image
made of an ELF header, `pad` zero bytes and the program headers `phs` (so that
`phoff = 52 + pad`); every later byte of the disk at position `a` is
`a mod 251 + 1`. -/
def elfDisk (magic entry pad : Nat) (phs : List Hdr) : Nat → Nat := fun a =>
  if a < 512 then 0
  else if a < 512 + 52 then (ehBytes magic entry (52 + pad) phs.length).getD (a - 512) 0
  else if a < 512 + 52 + pad then 0
  else (phBytes phs).getD (a - 512 - 52 - pad) (a % 251 + 1)

/-- A machine about to run `bootmain` on the disk `img`: memory is zero, the
controller answers busy once at the start and twice after each command. -/
def bootMachine (img : Nat → Nat) : Machine :=
  { mem := fun _ => 0,
    ide := { image := img, lag := 2, busy := 1, nsect := 0, lba0 := 0, lba1 := 0, lba2 := 0,
             drive := 0, cursor := 0, left := 0 },
    trace := [] }

/-- The two-segment image of the specification: 100 bytes at 0x100000, then 50
bytes followed by 150 zero bytes at 0x200000; entry 0x10000C. -/
def twoSegDisk : Nat → Nat :=
  elfDisk ELF_MAGIC 0x10000C 0
    [{ off := 0x1000, paddr := 0x100000, filesz := 100, memsz := 100 },
     { off := 0x2000, paddr := 0x200000, filesz := 50, memsz := 200 }]

/-- An image whose first four bytes are 00 00 00 00. -/
def badMagicDisk : Nat → Nat :=
  elfDisk 0 0x10000C 0
    [{ off := 0x1000, paddr := 0x100000, filesz := 100, memsz := 100 }]

/-- An image with two adjacent segments: 50 bytes and 50 zero bytes at
0x100000, then 10 bytes at 0x100064 taken from image offset 0x1264, which is
100 bytes into a sector. -/
def adjacentDisk : Nat → Nat :=
  elfDisk ELF_MAGIC 0x10000C 0
    [{ off := 0x1000, paddr := 0x100000, filesz := 50, memsz := 100 },
     { off := 0x1264, paddr := 0x100064, filesz := 10, memsz := 10 }]

/-- An image whose program-header table starts at image offset 4096, past the
bytes that `bootmain` stages: one segment of 100 bytes at 0x100000. -/
def farTableDisk : Nat → Nat :=
  elfDisk ELF_MAGIC 0x10000C 4044
    [{ off := 0x2000, paddr := 0x100000, filesz := 100, memsz := 100 }]

/-- A controller for the worked examples: disk byte `a` is `a mod 251`, the
controller answers busy twice after a command and once at the start. -/
def demoIde : Ide :=
  { image := fun a => a % 251, lag := 2, busy := 1, nsect := 0, lba0 := 0, lba1 := 0,
    lba2 := 0, drive := 0, cursor := 0, left := 0 }

/-- A machine for the worked examples: memory filled with 0xCC, no events. -/
def demoMachine : Machine := { mem := fun _ => 0xCC, ide := demoIde, trace := [] }

/-! ## Memory and device lemmas -/

theorem store8_apply (m : Mem) (a v x : Nat) :
    m.store8 a v x = if x = a % WORD then v % 256 else m x := rfl

theorem store32_apply (m : Mem) (a w x : Nat) (ha : a + 4 ≤ WORD) :
    m.store32 a w x =
      if x = a then w % 256
      else if x = a + 1 then w / 256 % 256
      else if x = a + 2 then w / 65536 % 256
      else if x = a + 3 then w / 16777216 % 256
      else m x := by
  have h0 : a % WORD = a := Nat.mod_eq_of_lt (by omega)
  have h1 : (a + 1) % WORD = a + 1 := Nat.mod_eq_of_lt (by omega)
  have h2 : (a + 2) % WORD = a + 2 := Nat.mod_eq_of_lt (by omega)
  have h3 : (a + 3) % WORD = a + 3 := Nat.mod_eq_of_lt (by omega)
  simp only [Mem.store32, store8_apply, h0, h1, h2, h3]
  split_ifs <;> first | rfl | omega

theorem inslLoop_spec (cnt : Nat) : ∀ (addr : Nat) (s : Machine),
    s.ide.busy = 0 → 4 * cnt ≤ s.ide.left → addr + 4 * cnt ≤ WORD →
    (inslLoop 0x1F0 cnt addr s).trace = s.trace ∧
    (inslLoop 0x1F0 cnt addr s).ide =
      { s.ide with cursor := s.ide.cursor + 4 * cnt, left := s.ide.left - 4 * cnt } ∧
    ∀ x, (inslLoop 0x1F0 cnt addr s).mem x =
      if addr ≤ x ∧ x < addr + 4 * cnt then s.ide.byteAt (s.ide.cursor + (x - addr))
      else s.mem x := by
  induction cnt with
  | zero =>
    intro addr s _ _ _
    refine ⟨rfl, ?_, ?_⟩
    · simp [inslLoop]
    · intro x
      simp only [inslLoop]
      rw [if_neg (by omega)]
  | succ n ih =>
    intro addr s hb hl ha
    have hrd : s.ide.portReadL 0x1F0 =
        (s.ide.byteAt s.ide.cursor + 256 * s.ide.byteAt (s.ide.cursor + 1)
            + 65536 * s.ide.byteAt (s.ide.cursor + 2)
            + 16777216 * s.ide.byteAt (s.ide.cursor + 3),
          { s.ide with cursor := s.ide.cursor + 4, left := s.ide.left - 4 }) := by
      have : 4 ≤ s.ide.left := by omega
      simp [Ide.portReadL, hb, this]
    have hstep : inslLoop 0x1F0 (n + 1) addr s =
        inslLoop 0x1F0 n ((addr + 4) % WORD)
          { s with mem := s.mem.store32 addr (s.ide.portReadL 0x1F0).1,
                   ide := (s.ide.portReadL 0x1F0).2 } := rfl
    rw [hstep, hrd]
    by_cases hn : n = 0
    · subst hn
      refine ⟨rfl, ?_, ?_⟩
      · simp [inslLoop]
      · intro x
        simp only [inslLoop]
        rw [store32_apply _ _ _ _ (by omega)]
        simp only [Ide.byteAt]
        split_ifs <;> first | (subst_vars; simp; omega) | omega
    · have hmod : (addr + 4) % WORD = addr + 4 := Nat.mod_eq_of_lt (by omega)
      rw [hmod]
      obtain ⟨h1, h2, h3⟩ := ih (addr + 4)
        { s with mem := s.mem.store32 addr
                    (s.ide.byteAt s.ide.cursor + 256 * s.ide.byteAt (s.ide.cursor + 1)
                      + 65536 * s.ide.byteAt (s.ide.cursor + 2)
                      + 16777216 * s.ide.byteAt (s.ide.cursor + 3)),
                 ide := { s.ide with cursor := s.ide.cursor + 4, left := s.ide.left - 4 } }
        (by simpa using hb) (by simp; omega) (by omega)
      refine ⟨h1, ?_, ?_⟩
      · rw [h2]
        simp only [Ide.mk.injEq, true_and]
        constructor <;> omega
      · intro x
        rw [h3 x]
        simp only
        rw [store32_apply _ _ _ _ (by omega)]
        simp only [Ide.byteAt]
        split_ifs <;> first | (subst_vars; simp; omega) | omega | (congr 2; omega)

theorem waitdisk_eq : ∀ (fuel : Nat) (s : Machine), s.ide.busy < fuel →
    waitdisk fuel s =
      some { s with ide := { s.ide with busy := 0 }, trace := s.trace ++ polls s.ide.busy } := by
  intro fuel
  induction fuel with
  | zero => intro s h; omega
  | succ n ih =>
    intro s h
    by_cases hb : 0 < s.ide.busy
    · have hr : inb 0x1F7 s =
          (0x80, { s with ide := { s.ide with busy := s.ide.busy - 1 },
                          trace := s.trace ++ [Event.inb 0x1F7 0x80] }) := by
        simp [inb, Ide.portRead, hb]
      have hstep : waitdisk (n + 1) s =
          if (inb 0x1F7 s).1 &&& 0xC0 ≠ 0x40 then waitdisk n (inb 0x1F7 s).2
          else some (inb 0x1F7 s).2 := rfl
      rw [hstep, hr]
      have hm : (0x80 : Nat) &&& 0xC0 ≠ 0x40 := by decide
      dsimp only
      rw [if_pos hm, ih _ (by simp; omega)]
      obtain ⟨k, hk⟩ : ∃ k, s.ide.busy = k + 1 := ⟨s.ide.busy - 1, by omega⟩
      simp [polls, hk, List.replicate_succ]
    · have hb0 : s.ide.busy = 0 := by omega
      have hr : inb 0x1F7 s =
          (0x50, { s with trace := s.trace ++ [Event.inb 0x1F7 0x50] }) := by
        simp [inb, Ide.portRead, hb0]
      have hstep : waitdisk (n + 1) s =
          if (inb 0x1F7 s).1 &&& 0xC0 ≠ 0x40 then waitdisk n (inb 0x1F7 s).2
          else some (inb 0x1F7 s).2 := rfl
      rw [hstep, hr]
      have hm : ¬ ((0x50 : Nat) &&& 0xC0 ≠ 0x40) := by decide
      dsimp only
      rw [if_neg hm]
      cases s with
      | mk mem ide trace =>
        cases ide
        simp_all [polls]

theorem lor_E0 : ∀ x, x < 16 → (x ||| 0xE0) = x + 0xE0 := by decide

theorem sector_bytes (sec : Nat) (h : sec < 268435456) :
    ((sec >>> 24) ||| 0xE0) % 256 / 16 = 0xE ∧
    sec % 256 + 256 * ((sec >>> 8) % 256) + 65536 * ((sec >>> 16) % 256)
      + 16777216 * (((sec >>> 24) ||| 0xE0) % 256 % 16) = sec := by
  have h24 : sec >>> 24 = sec / 16777216 := by rw [Nat.shiftRight_eq_div_pow]
  have h16 : sec >>> 16 = sec / 65536 := by rw [Nat.shiftRight_eq_div_pow]
  have h8 : sec >>> 8 = sec / 256 := by rw [Nat.shiftRight_eq_div_pow]
  have hlt : sec / 16777216 < 16 := by omega
  rw [h24, h16, h8, lor_E0 _ hlt]
  constructor <;> omega

theorem portWrite_chain (d : Ide) (hb : d.busy = 0) (sec : Nat) (hs : sec < 268435456) :
    (((((d.portWrite 0x1F2 (1 % 256)).portWrite 0x1F3 (sec % 256)).portWrite 0x1F4
        ((sec >>> 8) % 256)).portWrite 0x1F5 ((sec >>> 16) % 256)).portWrite 0x1F6
        (((sec >>> 24) ||| 0xE0) % 256)).portWrite 0x1F7 (0x20 % 256) =
      { image := d.image, lag := d.lag, busy := d.lag, nsect := 1, lba0 := sec % 256,
        lba1 := (sec >>> 8) % 256, lba2 := (sec >>> 16) % 256,
        drive := ((sec >>> 24) ||| 0xE0) % 256, cursor := 512 * sec, left := 512 } := by
  obtain ⟨hE, hsum⟩ := sector_bytes sec hs
  obtain ⟨image, lag, busy, nsect, lba0, lba1, lba2, drive, cursor, left⟩ := d
  simp only at hb
  subst hb
  simp [Ide.portWrite, Ide.lba, hE, hsum]

theorem insl_eq (addr cnt : Nat) (s : Machine)
    (hb : s.ide.busy = 0) (hl : 4 * cnt ≤ s.ide.left) (ha : addr + 4 * cnt ≤ WORD) :
    insl 0x1F0 addr cnt s =
      { mem := fun x =>
          if addr ≤ x ∧ x < addr + 4 * cnt then s.ide.byteAt (s.ide.cursor + (x - addr))
          else s.mem x,
        ide := { s.ide with cursor := s.ide.cursor + 4 * cnt, left := s.ide.left - 4 * cnt },
        trace := s.trace ++ [Event.insl 0x1F0 addr cnt] } := by
  obtain ⟨_, h2, h3⟩ := inslLoop_spec cnt addr s hb hl ha
  simp only [insl, h2]
  congr 1
  funext x
  exact h3 x

theorem readsect_eq (fuel dst sec : Nat) (s : Machine)
    (hb : s.ide.busy < fuel) (hl : s.ide.lag < fuel) (hd : dst + 512 ≤ WORD)
    (hs : sec < 268435456) :
    readsect fuel dst sec s = some (sectPost dst sec s) := by
  unfold readsect
  rw [waitdisk_eq _ _ (by simpa using hb)]
  simp only [Option.some_bind, outb]
  rw [portWrite_chain _ rfl sec hs, waitdisk_eq _ _ (by simpa using hl)]
  have h128 : SECTSIZE / 4 = 128 := rfl
  simp only [Option.some_bind, h128]
  rw [insl_eq _ _ _ rfl (by simp) (by simpa using hd)]
  simp [sectPost, sectTrace, Ide.byteAt]

/-! ## The sector loop of `readseg` -/

theorem readsegLoop_eq : ∀ (n fuel p epa sec : Nat) (s : Machine),
    n + s.ide.lag < fuel → s.ide.busy < fuel →
    p + 512 * n < WORD → sec + n ≤ 268435456 →
    (∀ j, j < n → p + 512 * j < epa) → epa ≤ p + 512 * n →
    readsegLoop fuel p epa sec s = some (segPost n p sec s) := by
  intro n
  have hW : WORD = 4294967296 := rfl
  have hS : SECTSIZE = 512 := rfl
  induction n with
  | zero =>
    intro fuel p epa sec s hf _ _ _ _ he
    obtain ⟨f, rfl⟩ : ∃ f, fuel = f + 1 := ⟨fuel - 1, by omega⟩
    have hlt : ¬ p < epa := by omega
    simp [readsegLoop, hlt, segPost]
  | succ n ih =>
    intro fuel p epa sec s hf hb hw hs hj he
    obtain ⟨f, rfl⟩ : ∃ f, fuel = f + 1 := ⟨fuel - 1, by omega⟩
    have hlt : p < epa := by simpa using hj 0 (by omega)
    have hstep : readsegLoop (f + 1) p epa sec s =
        if p < epa then
          (readsect (f + 1) p sec s).bind fun s1 =>
            readsegLoop f ((p + SECTSIZE) % WORD) epa ((sec + 1) % WORD) s1
        else some s := rfl
    rw [hstep, if_pos hlt, readsect_eq (f + 1) p sec s hb (by omega) (by omega) (by omega)]
    have hp : (p + SECTSIZE) % WORD = p + 512 := Nat.mod_eq_of_lt (by omega)
    have hsec : (sec + 1) % WORD = sec + 1 := Nat.mod_eq_of_lt (by omega)
    simp only [Option.some_bind, hp, hsec]
    rw [ih f (p + 512) epa (sec + 1) (sectPost p sec s) (by simp [sectPost]; omega)
      (by simp [sectPost]; omega) (by omega) (by omega)
      (fun j hjn => by have := hj (j + 1) (by omega); omega) (by omega)]
    rfl

theorem segPost_ide : ∀ (n p sec : Nat) (s : Machine),
    (segPost n p sec s).ide.image = s.ide.image ∧ (segPost n p sec s).ide.lag = s.ide.lag ∧
    (0 < n → (segPost n p sec s).ide.busy = 0) ∧
    (segPost n p sec s).ide.busy ≤ s.ide.busy := by
  intro n
  induction n with
  | zero => intro p sec s; simp [segPost]
  | succ n ih =>
    intro p sec s
    obtain ⟨h1, h2, h3, h4⟩ := ih (p + 512) (sec + 1) (sectPost p sec s)
    have h0 : (sectPost p sec s).ide.busy = 0 := rfl
    refine ⟨by rw [segPost, h1]; rfl, by rw [segPost, h2]; rfl, fun _ => ?_, ?_⟩
    · rw [segPost]
      omega
    · rw [segPost]
      omega

theorem segPost_mem : ∀ (n p sec : Nat) (s : Machine) (x : Nat),
    (segPost n p sec s).mem x =
      if p ≤ x ∧ x < p + 512 * n then s.ide.byteAt (512 * sec + (x - p)) else s.mem x := by
  intro n
  induction n with
  | zero =>
    intro p sec s x
    rw [if_neg (by omega)]
    rfl
  | succ n ih =>
    intro p sec s x
    rw [segPost, ih]
    simp only [sectPost, Ide.byteAt]
    by_cases h1 : p + 512 ≤ x ∧ x < p + 512 + 512 * n
    · have he : 512 * (sec + 1) + (x - (p + 512)) = 512 * sec + (x - p) := by omega
      rw [if_pos h1, if_pos (by omega), he]
    · rw [if_neg h1]
      by_cases h2 : p ≤ x ∧ x < p + 512
      · rw [if_pos h2, if_pos (by omega)]
      · rw [if_neg h2, if_neg (by omega)]

theorem segPost_trace : ∀ (n p sec : Nat) (s : Machine),
    (segPost n p sec s).trace = s.trace ++ segTrace n s.ide.busy s.ide.lag p sec := by
  intro n
  induction n with
  | zero => intro p sec s; simp [segPost, segTrace]
  | succ n ih =>
    intro p sec s
    rw [segPost, ih]
    simp [sectPost, segTrace]

theorem readseg_eq (fuel pa count offset : Nat) (s : Machine)
    (hf : segSectors pa count offset + s.ide.lag < fuel) (hb : s.ide.busy < fuel)
    (hw : segStart pa offset + 512 * segSectors pa count offset < WORD)
    (ho : offset < WORD) :
    readseg fuel pa count offset s =
      some (segPost (segSectors pa count offset) (segStart pa offset) (offset / 512 + 1) s) := by
  have hsec : (offset / SECTSIZE + 1) % WORD = offset / 512 + 1 := by
    simp only [WORD, SECTSIZE] at *
    exact Nat.mod_eq_of_lt (by omega)
  unfold readseg
  simp only [hsec]
  simp only [WORD] at hw ho
  have hn : segSectors pa count offset =
      (segEnd pa count - segStart pa offset + 511) / 512 := rfl
  exact readsegLoop_eq (segSectors pa count offset) fuel (segStart pa offset) (segEnd pa count)
    (offset / 512 + 1) s hf hb hw (by omega) (fun j hj => by omega) (by omega)

theorem stosbLoop_eq : ∀ (cnt addr data : Nat) (m : Mem),
    stosbLoop cnt addr data m = fillMem addr data cnt m := by
  intro cnt
  induction cnt with
  | zero =>
    intro addr data m
    funext x
    simp [stosbLoop, fillMem]
  | succ n ih =>
    intro addr data m
    funext x
    rw [stosbLoop, ih _ _ _]
    simp only [fillMem, store8_apply, WORD]
    have hmm : (addr + 1) % 4294967296 % 4294967296 = (addr + 1) % 4294967296 :=
      Nat.mod_mod _ _
    rw [hmm]
    by_cases hx : x < 4294967296
    · by_cases h1 : (x + 4294967296 - (addr + 1) % 4294967296) % 4294967296 < n
      · rw [if_pos ⟨hx, h1⟩, if_pos ⟨hx, by omega⟩]
      · rw [if_neg (fun h => h1 h.2)]
        by_cases hxa : x = addr % 4294967296
        · rw [if_pos hxa, if_pos ⟨hx, by omega⟩]
        · rw [if_neg hxa, if_neg (fun h => h1 (by omega))]
    · have hxa : ¬ x = addr % 4294967296 := by omega
      rw [if_neg (fun h => hx h.1), if_neg hxa, if_neg (fun h => hx h.1)]

/-! ## Projections of the sector traces -/

theorem filterMap_replicate_none {α β : Type} (f : α → Option β) (a : α) (h : f a = none) :
    ∀ n, (List.replicate n a).filterMap f = [] := by
  intro n
  induction n with
  | zero => rfl
  | succ n ih => rw [List.replicate_succ, List.filterMap_cons_none h, ih]

theorem readsectCalls_append (a b : List Event) :
    readsectCalls (a ++ b) = readsectCalls a ++ readsectCalls b :=
  List.filterMap_append _ _ _

theorem portWrites_append (a b : List Event) :
    portWrites (a ++ b) = portWrites a ++ portWrites b :=
  List.filterMap_append _ _ _

theorem transfers_append (a b : List Event) :
    transfers (a ++ b) = transfers a ++ transfers b :=
  List.filterMap_append _ _ _

theorem fills_append (a b : List Event) : fills (a ++ b) = fills a ++ fills b :=
  List.filterMap_append _ _ _

theorem jumps_append (a b : List Event) : jumps (a ++ b) = jumps a ++ jumps b :=
  List.filterMap_append _ _ _

theorem polls_proj (b : Nat) :
    readsectCalls (polls b) = [] ∧ portWrites (polls b) = [] ∧ transfers (polls b) = [] ∧
    fills (polls b) = [] ∧ jumps (polls b) = [] := by
  simp only [polls, readsectCalls, portWrites, transfers, fills, jumps, List.filterMap_append]
  refine ⟨?_, ?_, ?_, ?_, ?_⟩ <;>
    (rw [filterMap_replicate_none _ _ rfl]; rfl)

theorem sectTrace_proj (b lag dst sec : Nat) :
    readsectCalls (sectTrace b lag dst sec) = [(dst, sec)] ∧
    portWrites (sectTrace b lag dst sec) =
      [(0x1F2, 1), (0x1F3, sec % 256), (0x1F4, (sec >>> 8) % 256), (0x1F5, (sec >>> 16) % 256),
       (0x1F6, ((sec >>> 24) ||| 0xE0) % 256), (0x1F7, 0x20)] ∧
    transfers (sectTrace b lag dst sec) = [(0x1F0, dst, 128)] ∧
    fills (sectTrace b lag dst sec) = [] ∧ jumps (sectTrace b lag dst sec) = [] := by
  obtain ⟨a1, a2, a3, a4, a5⟩ := polls_proj b
  obtain ⟨b1, b2, b3, b4, b5⟩ := polls_proj lag
  simp only [sectTrace, readsectCalls_append, portWrites_append, transfers_append, fills_append,
    jumps_append, a1, a2, a3, a4, a5, b1, b2, b3, b4, b5]
  refine ⟨rfl, rfl, rfl, rfl, rfl⟩

theorem segTrace_proj : ∀ (n b lag p sec : Nat),
    readsectCalls (segTrace n b lag p sec) =
      (List.range n).map (fun j => (p + 512 * j, sec + j)) ∧
    transfers (segTrace n b lag p sec) =
      (List.range n).map (fun j => (0x1F0, p + 512 * j, 128)) ∧
    fills (segTrace n b lag p sec) = [] ∧ jumps (segTrace n b lag p sec) = [] := by
  intro n
  induction n with
  | zero => intro b lag p sec; exact ⟨rfl, rfl, rfl, rfl⟩
  | succ n ih =>
    intro b lag p sec
    obtain ⟨a1, _, a3, a4, a5⟩ := sectTrace_proj b lag p sec
    obtain ⟨b1, b3, b4, b5⟩ := ih 0 lag (p + 512) (sec + 1)
    simp only [segTrace, readsectCalls_append, transfers_append, fills_append, jumps_append,
      a1, a3, a4, a5, b1, b3, b4, b5, List.range_succ_eq_map, List.map_cons, List.map_map]
    refine ⟨?_, ?_, rfl, rfl⟩
    · simp only [List.singleton_append, List.cons.injEq, Prod.mk.injEq]
      refine ⟨⟨by omega, by omega⟩, ?_⟩
      apply List.map_congr_left
      intro j _
      simp only [Function.comp, Prod.mk.injEq]
      constructor <;> omega
    · simp only [List.singleton_append, List.cons.injEq, Prod.mk.injEq]
      refine ⟨⟨trivial, by omega, trivial⟩, ?_⟩
      apply List.map_congr_left
      intro j _
      simp only [Function.comp, Prod.mk.injEq]
      exact ⟨trivial, by omega, trivial⟩

theorem newEvents_append (s s1 : Machine) (t : List Event) (h : s1.trace = s.trace ++ t) :
    newEvents s s1 = t := by
  simp [newEvents, h]

/-! ## `readseg` without address wrap-around -/

theorem exact_shape (pa count offset : Nat) (h1 : offset % 512 ≤ pa)
    (hw : pa - offset % 512 + 512 * sectorsNeeded count offset < WORD) :
    segStart pa offset = pa - offset % 512 ∧
    segSectors pa count offset = sectorsNeeded count offset ∧
    pa + count ≤ pa - offset % 512 + 512 * sectorsNeeded count offset := by
  have hc : pa + count ≤ pa - offset % 512 + 512 * sectorsNeeded count offset := by
    simp only [sectorsNeeded, SECTSIZE]
    omega
  simp only [WORD] at hw
  have hs : segStart pa offset = pa - offset % 512 := by
    simp only [segStart, WORD, SECTSIZE]
    omega
  have he : segEnd pa count = pa + count := by
    simp only [segEnd, WORD]
    omega
  have hn : segSectors pa count offset = sectorsNeeded count offset := by
    simp only [segSectors, sectorsNeeded, hs, he, SECTSIZE]
    congr 1
    omega
  exact ⟨hs, hn, hc⟩

theorem nowrap_shape (pa count offset : Nat) (h1 : offset % 512 ≤ pa)
    (h2 : pa + count + 511 < WORD) :
    segStart pa offset = pa - offset % 512 ∧
    segSectors pa count offset = sectorsNeeded count offset ∧
    pa - offset % 512 + 512 * sectorsNeeded count offset < WORD ∧
    pa + count ≤ pa - offset % 512 + 512 * sectorsNeeded count offset := by
  have hw : pa - offset % 512 + 512 * sectorsNeeded count offset < WORD := by
    simp only [sectorsNeeded, SECTSIZE, WORD] at h2 ⊢
    omega
  obtain ⟨hs, hn, hc⟩ := exact_shape pa count offset h1 hw
  exact ⟨hs, hn, hw, hc⟩

theorem readseg_exact (fuel pa count offset : Nat) (s : Machine)
    (ho : offset < WORD) (h1 : offset % 512 ≤ pa)
    (hw : pa - offset % 512 + 512 * sectorsNeeded count offset < WORD)
    (hf : sectorsNeeded count offset + s.ide.lag < fuel) (hb : s.ide.busy < fuel) :
    readseg fuel pa count offset s =
      some (segPost (sectorsNeeded count offset) (pa - offset % 512) (offset / 512 + 1) s) := by
  obtain ⟨hs, hn, _⟩ := exact_shape pa count offset h1 hw
  have := readseg_eq fuel pa count offset s (by rw [hn]; exact hf) hb
    (by rw [hs, hn]; exact hw) ho
  rw [this, hs, hn]

theorem readseg_nowrap (fuel pa count offset : Nat) (s : Machine)
    (ho : offset < WORD) (h1 : offset % 512 ≤ pa) (h2 : pa + count + 511 < WORD)
    (hf : sectorsNeeded count offset + s.ide.lag < fuel) (hb : s.ide.busy < fuel) :
    readseg fuel pa count offset s =
      some (segPost (sectorsNeeded count offset) (pa - offset % 512) (offset / 512 + 1) s) :=
  readseg_exact fuel pa count offset s ho h1 (nowrap_shape pa count offset h1 h2).2.2.1 hf hb

theorem inslLoop_trace (port : Nat) : ∀ (cnt addr : Nat) (s : Machine),
    (inslLoop port cnt addr s).trace = s.trace := by
  intro cnt
  induction cnt with
  | zero => intro addr s; rfl
  | succ n ih => intro addr s; rw [inslLoop, ih]

theorem readsect_events (fuel dst sec : Nat) (s : Machine)
    (hb : s.ide.busy < fuel) (hl : s.ide.lag < fuel) (hs : sec < 268435456) :
    ∃ s1, readsect fuel dst sec s = some s1 ∧
      s1.trace = s.trace ++ sectTrace s.ide.busy s.ide.lag dst sec := by
  unfold readsect
  rw [waitdisk_eq _ _ (by simpa using hb)]
  simp only [Option.some_bind, outb]
  rw [portWrite_chain _ rfl sec hs, waitdisk_eq _ _ (by simpa using hl)]
  have h128 : SECTSIZE / 4 = 128 := rfl
  simp only [Option.some_bind, h128]
  refine ⟨_, rfl, ?_⟩
  simp [insl, sectTrace]

/-! ## The statements about `readsect` and `readseg` -/

/-- C4: without 32-bit wrap-around (`pa ≥ offset mod 512` and
`pa + count + 511 < 2^32`), on a disk that answers every sector read (any fuel
above the polls the controller needs), `readseg(pa, count, offset)` returns and
leaves at `pa + i` the disk byte `512 + offset + i` for every `i < count`,
whatever the alignment of `offset`. -/
theorem readseg_loads_bytes (fuel pa count offset : Nat) (s : Machine)
    (ho : offset < WORD) (h1 : offset % 512 ≤ pa) (h2 : pa + count + 511 < WORD)
    (hf : sectorsNeeded count offset + s.ide.lag < fuel) (hb : s.ide.busy < fuel) :
    ∃ s1, readseg fuel pa count offset s = some s1 ∧
      ∀ i, i < count → s1.mem (pa + i) = s.ide.byteAt (512 + offset + i) := by
  refine ⟨_, readseg_nowrap fuel pa count offset s ho h1 h2 hf hb, ?_⟩
  intro i hi
  obtain ⟨_, _, _, hc⟩ := nowrap_shape pa count offset h1 h2
  rw [segPost_mem, if_pos ⟨by omega, by omega⟩]
  congr 1
  omega

/-- C4 at `readseg(0x100000, 100, 513)` on the example machine. -/
theorem readseg_loads_bytes_witness :
    ∃ s1, readseg 10 0x100000 100 513 demoMachine = some s1 ∧
      ∀ i, i < 100 → s1.mem (0x100000 + i) = demoMachine.ide.byteAt (512 + 513 + i) :=
  readseg_loads_bytes 10 0x100000 100 513 demoMachine (by decide) (by decide) (by decide)
    (by decide) (by decide)

/-- C5: without pointer wrap-around (the first destination `pa - offset mod 512`
is not below 0 and the sector loop ends below `2^32`) the sectors that `readseg`
passes to `readsect` are, in order, `offset/512 + 1 + j` for `j = 0 .. n-1` with
`n = ceil((offset mod 512 + count) / 512)`; sector 0 is never among them; and
`n = 0` exactly when `count = 0` and `offset` is sector-aligned. -/
theorem readseg_sector_run (fuel pa count offset : Nat) (s : Machine)
    (ho : offset < WORD) (h1 : offset % 512 ≤ pa)
    (hw : pa - offset % 512 + 512 * sectorsNeeded count offset < WORD)
    (hf : sectorsNeeded count offset + s.ide.lag < fuel) (hb : s.ide.busy < fuel) :
    ∃ s1, readseg fuel pa count offset s = some s1 ∧
      (readsectCalls (newEvents s s1)).map Prod.snd =
        (List.range (sectorsNeeded count offset)).map (fun j => offset / 512 + 1 + j) ∧
      (∀ c ∈ readsectCalls (newEvents s s1), c.2 ≠ 0) ∧
      (sectorsNeeded count offset = 0 ↔ count = 0 ∧ offset % 512 = 0) := by
  refine ⟨_, readseg_exact fuel pa count offset s ho h1 hw hf hb, ?_⟩
  rw [newEvents_append _ _ _ (segPost_trace _ _ _ _), (segTrace_proj _ _ _ _ _).1]
  refine ⟨?_, ?_, ?_⟩
  · rw [List.map_map]
    rfl
  · intro c hc
    obtain ⟨j, _, rfl⟩ := List.mem_map.mp hc
    simp
  · simp only [sectorsNeeded, SECTSIZE]
    omega

/-- C5 at offsets 0, 511, 512 and 513 with lengths of one to three sectors. -/
theorem readseg_sector_run_witness :
    (∃ s1, readseg 10 0x100000 512 0 demoMachine = some s1 ∧
      (readsectCalls (newEvents demoMachine s1)).map Prod.snd =
        (List.range (sectorsNeeded 512 0)).map (fun j => 0 / 512 + 1 + j) ∧
      (∀ c ∈ readsectCalls (newEvents demoMachine s1), c.2 ≠ 0) ∧
      (sectorsNeeded 512 0 = 0 ↔ 512 = 0 ∧ 0 % 512 = 0)) ∧
    (∃ s1, readseg 10 0x100000 1024 511 demoMachine = some s1 ∧
      (readsectCalls (newEvents demoMachine s1)).map Prod.snd =
        (List.range (sectorsNeeded 1024 511)).map (fun j => 511 / 512 + 1 + j) ∧
      (∀ c ∈ readsectCalls (newEvents demoMachine s1), c.2 ≠ 0) ∧
      (sectorsNeeded 1024 511 = 0 ↔ 1024 = 0 ∧ 511 % 512 = 0)) ∧
    (∃ s1, readseg 10 0x100000 1536 512 demoMachine = some s1 ∧
      (readsectCalls (newEvents demoMachine s1)).map Prod.snd =
        (List.range (sectorsNeeded 1536 512)).map (fun j => 512 / 512 + 1 + j) ∧
      (∀ c ∈ readsectCalls (newEvents demoMachine s1), c.2 ≠ 0) ∧
      (sectorsNeeded 1536 512 = 0 ↔ 1536 = 0 ∧ 512 % 512 = 0)) ∧
    (∃ s1, readseg 10 0x100000 600 513 demoMachine = some s1 ∧
      (readsectCalls (newEvents demoMachine s1)).map Prod.snd =
        (List.range (sectorsNeeded 600 513)).map (fun j => 513 / 512 + 1 + j) ∧
      (∀ c ∈ readsectCalls (newEvents demoMachine s1), c.2 ≠ 0) ∧
      (sectorsNeeded 600 513 = 0 ↔ 600 = 0 ∧ 513 % 512 = 0)) :=
  ⟨readseg_sector_run 10 0x100000 512 0 demoMachine (by decide) (by decide) (by decide)
      (by decide) (by decide),
   readseg_sector_run 10 0x100000 1024 511 demoMachine (by decide) (by decide) (by decide)
      (by decide) (by decide),
   readseg_sector_run 10 0x100000 1536 512 demoMachine (by decide) (by decide) (by decide)
      (by decide) (by decide),
   readseg_sector_run 10 0x100000 600 513 demoMachine (by decide) (by decide) (by decide)
      (by decide) (by decide)⟩

/-- C6 (amended): without pointer wrap-around (the first destination
`pa - offset mod 512` is not below 0 and the sector loop ends below `2^32`) the
destinations that `readseg` passes to `readsect` are, in order, `pa - offset mod 512 + 512*j` for `j = 0 .. n-1`,
so successive destinations differ by exactly 512; they are multiples of 512
when `pa` and `offset` are congruent modulo 512. -/
theorem readseg_destinations (fuel pa count offset : Nat) (s : Machine)
    (ho : offset < WORD) (h1 : offset % 512 ≤ pa)
    (hw : pa - offset % 512 + 512 * sectorsNeeded count offset < WORD)
    (hf : sectorsNeeded count offset + s.ide.lag < fuel) (hb : s.ide.busy < fuel) :
    ∃ s1, readseg fuel pa count offset s = some s1 ∧
      (readsectCalls (newEvents s s1)).map Prod.fst =
        (List.range (sectorsNeeded count offset)).map (fun j => pa - offset % 512 + 512 * j) ∧
      (pa % 512 = offset % 512 → ∀ c ∈ readsectCalls (newEvents s s1), c.1 % 512 = 0) := by
  refine ⟨_, readseg_exact fuel pa count offset s ho h1 hw hf hb, ?_⟩
  rw [newEvents_append _ _ _ (segPost_trace _ _ _ _), (segTrace_proj _ _ _ _ _).1]
  refine ⟨?_, ?_⟩
  · rw [List.map_map]
    rfl
  · intro hal c hc
    obtain ⟨j, _, rfl⟩ := List.mem_map.mp hc
    simp only
    omega

/-- C6 (amended) at `readseg(0x100201, 1000, 513)`, where `pa` and `offset`
are both 1 modulo 512. -/
theorem readseg_destinations_witness :
    ∃ s1, readseg 10 0x100201 1000 513 demoMachine = some s1 ∧
      (readsectCalls (newEvents demoMachine s1)).map Prod.fst =
        (List.range (sectorsNeeded 1000 513)).map (fun j => 0x100201 - 513 % 512 + 512 * j) ∧
      (0x100201 % 512 = 513 % 512 →
        ∀ c ∈ readsectCalls (newEvents demoMachine s1), c.1 % 512 = 0) :=
  readseg_destinations 10 0x100201 1000 513 demoMachine (by decide) (by decide) (by decide)
    (by decide) (by decide)

/-- C6 as stated fails: `readseg(0x100001, 1, 0)` passes the destination
0x100001 to `readsect`, which is not a multiple of 512. -/
theorem readseg_unaligned_destination :
    ∃ s1, readseg 10 0x100001 1 0 demoMachine = some s1 ∧
      readsectCalls (newEvents demoMachine s1) = [(0x100001, 1)] ∧ 0x100001 % 512 ≠ 0 := by
  refine ⟨_, readseg_nowrap 10 0x100001 1 0 demoMachine (by decide) (by decide) (by decide)
    (by decide) (by decide), ?_, by decide⟩
  rw [newEvents_append _ _ _ (segPost_trace _ _ _ _), (segTrace_proj _ _ _ _ _).1]
  have hn : sectorsNeeded 1 0 = 1 := by decide
  rw [hn]
  rfl

/-- C9: without pointer wrap-around (the first destination is not below 0 and
the sector loop ends below `2^32`) `readseg(pa, count, offset)` writes exactly
the bytes `[pa - m, pa - m + 512*n)`, `m = offset mod 512`,
`n = ceil((m + count) / 512)`: it transfers one sector to each 512-byte block of
that range, every byte of the range then holds the disk byte of the same
position in the sector run, every byte outside is unchanged; the range starts
exactly `m ≤ 511` bytes before `pa` and ends at most 511 bytes past
`pa + count`. -/
theorem readseg_frame (fuel pa count offset : Nat) (s : Machine)
    (ho : offset < WORD) (h1 : offset % 512 ≤ pa)
    (hw : pa - offset % 512 + 512 * sectorsNeeded count offset < WORD)
    (hf : sectorsNeeded count offset + s.ide.lag < fuel) (hb : s.ide.busy < fuel) :
    ∃ s1, readseg fuel pa count offset s = some s1 ∧
      transfers (newEvents s s1) =
        (List.range (sectorsNeeded count offset)).map
          (fun j => (0x1F0, pa - offset % 512 + 512 * j, 128)) ∧
      fills (newEvents s s1) = [] ∧
      (∀ x, pa - offset % 512 ≤ x → x < pa - offset % 512 + 512 * sectorsNeeded count offset →
        s1.mem x = s.ide.byteAt (512 * (offset / 512 + 1) + (x - (pa - offset % 512)))) ∧
      (∀ x, ¬ (pa - offset % 512 ≤ x ∧ x < pa - offset % 512 + 512 * sectorsNeeded count offset) →
        s1.mem x = s.mem x) ∧
      pa - (pa - offset % 512) = offset % 512 ∧ offset % 512 ≤ 511 ∧
      pa + count ≤ pa - offset % 512 + 512 * sectorsNeeded count offset ∧
      pa - offset % 512 + 512 * sectorsNeeded count offset ≤ pa + count + 511 := by
  refine ⟨_, readseg_exact fuel pa count offset s ho h1 hw hf hb, ?_⟩
  obtain ⟨_, _, hc⟩ := exact_shape pa count offset h1 hw
  rw [newEvents_append _ _ _ (segPost_trace _ _ _ _)]
  refine ⟨(segTrace_proj _ _ _ _ _).2.1, (segTrace_proj _ _ _ _ _).2.2.1, ?_, ?_, by omega,
    by omega, hc, ?_⟩
  · intro x hx1 hx2
    rw [segPost_mem, if_pos ⟨hx1, hx2⟩]
  · intro x hx
    rw [segPost_mem, if_neg hx]
  · simp only [sectorsNeeded, SECTSIZE]
    omega

/-- C9 at `readseg(0x100000, 100, 513)`: the bytes written are
`[0xFFFFF, 0xFFFFF + 512)`. -/
theorem readseg_frame_witness :
    ∃ s1, readseg 10 0x100000 100 513 demoMachine = some s1 ∧
      transfers (newEvents demoMachine s1) =
        (List.range (sectorsNeeded 100 513)).map
          (fun j => (0x1F0, 0x100000 - 513 % 512 + 512 * j, 128)) ∧
      fills (newEvents demoMachine s1) = [] ∧
      (∀ x, 0x100000 - 513 % 512 ≤ x → x < 0x100000 - 513 % 512 + 512 * sectorsNeeded 100 513 →
        s1.mem x =
          demoMachine.ide.byteAt (512 * (513 / 512 + 1) + (x - (0x100000 - 513 % 512)))) ∧
      (∀ x, ¬ (0x100000 - 513 % 512 ≤ x ∧
            x < 0x100000 - 513 % 512 + 512 * sectorsNeeded 100 513) →
        s1.mem x = demoMachine.mem x) ∧
      0x100000 - (0x100000 - 513 % 512) = 513 % 512 ∧ 513 % 512 ≤ 511 ∧
      0x100000 + 100 ≤ 0x100000 - 513 % 512 + 512 * sectorsNeeded 100 513 ∧
      0x100000 - 513 % 512 + 512 * sectorsNeeded 100 513 ≤ 0x100000 + 100 + 511 :=
  readseg_frame 10 0x100000 100 513 demoMachine (by decide) (by decide) (by decide)
    (by decide) (by decide)

/-- C10: for a sector index `sec < 2^28`, `readsect(dst, sec)` returns once the
controller is ready; its events are the polls of the first wait, then the port
writes 1 to 0x1F2, `sec mod 256` to 0x1F3, `(sec >> 8) mod 256` to 0x1F4,
`(sec >> 16) mod 256` to 0x1F5, `(sec >> 24) | 0xE0` to 0x1F6 and 0x20 to 0x1F7
in this order, then the polls of the second wait, then one transfer of 128
four-byte words from port 0x1F0 to `dst`. The byte for 0x1F6 has top nibble
0xE, the four bytes reassemble `sec`, every sector index of a `readseg` call is
below `2^28`, and when `dst + 512` does not wrap the 512 bytes at `dst` are
those of sector `sec` and no other byte changes. -/
theorem readsect_protocol (fuel dst sec : Nat) (s : Machine)
    (hs : sec < 268435456) (hb : s.ide.busy < fuel) (hl : s.ide.lag < fuel) :
    ∃ s1, readsect fuel dst sec s = some s1 ∧
      newEvents s s1 =
        [Event.readsect dst sec] ++ polls s.ide.busy ++
          [Event.outb 0x1F2 1, Event.outb 0x1F3 (sec % 256),
           Event.outb 0x1F4 ((sec >>> 8) % 256), Event.outb 0x1F5 ((sec >>> 16) % 256),
           Event.outb 0x1F6 ((sec >>> 24) ||| 0xE0), Event.outb 0x1F7 0x20] ++
          polls s.ide.lag ++ [Event.insl 0x1F0 dst 128] ∧
      ((sec >>> 24) ||| 0xE0) / 16 = 0xE ∧
      sec % 256 + 256 * ((sec >>> 8) % 256) + 65536 * ((sec >>> 16) % 256)
        + 16777216 * (((sec >>> 24) ||| 0xE0) % 16) = sec ∧
      (∀ count offset j, offset < WORD → count < WORD → j < sectorsNeeded count offset →
        offset / 512 + 1 + j < 268435456) ∧
      (dst + 512 ≤ WORD →
        (∀ i, i < 512 → s1.mem (dst + i) = s.ide.byteAt (512 * sec + i)) ∧
        (∀ x, ¬ (dst ≤ x ∧ x < dst + 512) → s1.mem x = s.mem x)) := by
  obtain ⟨s1, hrun, htr⟩ := readsect_events fuel dst sec s hb hl hs
  obtain ⟨hE, hsum⟩ := sector_bytes sec hs
  have h24 : sec >>> 24 = sec / 16777216 := by rw [Nat.shiftRight_eq_div_pow]
  have hlt : sec / 16777216 < 16 := by omega
  have hmod : ((sec >>> 24) ||| 0xE0) % 256 = (sec >>> 24) ||| 0xE0 := by
    rw [h24, lor_E0 _ hlt]
    omega
  rw [hmod] at hE hsum
  refine ⟨s1, hrun, ?_, hE, hsum, ?_, ?_⟩
  · rw [newEvents_append _ _ _ htr, sectTrace, hmod]
  · intro count offset j ho hc hj
    simp only [WORD] at ho hc
    simp only [sectorsNeeded, SECTSIZE] at hj
    omega
  · intro hd
    rw [readsect_eq fuel dst sec s hb hl hd hs] at hrun
    have hs1 : s1 = sectPost dst sec s := (Option.some.inj hrun).symm
    subst hs1
    constructor
    · intro i hi
      simp only [sectPost]
      rw [if_pos ⟨by omega, by omega⟩]
      congr 2
      omega
    · intro x hx
      simp only [sectPost]
      rw [if_neg hx]

/-- C10 at `readsect(0x10000, 0x1234567)` on the example machine. -/
theorem readsect_protocol_witness :
    ∃ s1, readsect 10 0x10000 0x1234567 demoMachine = some s1 ∧
      newEvents demoMachine s1 =
        [Event.readsect 0x10000 0x1234567] ++ polls demoMachine.ide.busy ++
          [Event.outb 0x1F2 1, Event.outb 0x1F3 (0x1234567 % 256),
           Event.outb 0x1F4 ((0x1234567 >>> 8) % 256),
           Event.outb 0x1F5 ((0x1234567 >>> 16) % 256),
           Event.outb 0x1F6 ((0x1234567 >>> 24) ||| 0xE0), Event.outb 0x1F7 0x20] ++
          polls demoMachine.ide.lag ++ [Event.insl 0x1F0 0x10000 128] ∧
      ((0x1234567 >>> 24) ||| 0xE0) / 16 = 0xE ∧
      0x1234567 % 256 + 256 * ((0x1234567 >>> 8) % 256) + 65536 * ((0x1234567 >>> 16) % 256)
        + 16777216 * (((0x1234567 >>> 24) ||| 0xE0) % 16) = 0x1234567 ∧
      (∀ count offset j, offset < WORD → count < WORD → j < sectorsNeeded count offset →
        offset / 512 + 1 + j < 268435456) ∧
      (0x10000 + 512 ≤ WORD →
        (∀ i, i < 512 → s1.mem (0x10000 + i) = demoMachine.ide.byteAt (512 * 0x1234567 + i)) ∧
        (∀ x, ¬ (0x10000 ≤ x ∧ x < 0x10000 + 512) → s1.mem x = demoMachine.mem x)) :=
  readsect_protocol 10 0x10000 0x1234567 demoMachine (by decide) (by decide) (by decide)

/-! ## The segment loop of `bootmain` -/

theorem rd8_lt (m : Mem) (a : Nat) : rd8 m a < 256 := Nat.mod_lt _ (by decide)

theorem rd32_lt (m : Mem) (a : Nat) : rd32 m a < WORD := by
  have h0 := rd8_lt m a
  have h1 := rd8_lt m (a + 1)
  have h2 := rd8_lt m (a + 2)
  have h3 := rd8_lt m (a + 3)
  simp only [rd32, WORD]
  omega

theorem rd8_staged (img : Nat → Nat) (m : Mem) (hm : Staged img m) (k : Nat) (hk : k < 4096) :
    rd8 m (0x10000 + k) = rd8 (kernelImage img) k := by
  have h1 : (0x10000 + k) % WORD = 0x10000 + k := Nat.mod_eq_of_lt (by simp only [WORD]; omega)
  have h2 : k % WORD = k := Nat.mod_eq_of_lt (by simp only [WORD]; omega)
  have h3 : 0x10000 + k - 0x10000 = k := by omega
  simp only [rd8, h1, h2, kernelImage]
  rw [hm _ (by omega) (by omega), h3]

theorem rd32_staged (img : Nat → Nat) (m : Mem) (hm : Staged img m) (k : Nat)
    (hk : k + 4 ≤ 4096) : rd32 m (0x10000 + k) = rd32 (kernelImage img) k := by
  simp only [rd32, Nat.add_assoc]
  rw [rd8_staged img m hm k (by omega), rd8_staged img m hm (k + 1) (by omega),
    rd8_staged img m hm (k + 2) (by omega), rd8_staged img m hm (k + 3) (by omega)]

theorem rd16_staged (img : Nat → Nat) (m : Mem) (hm : Staged img m) (k : Nat)
    (hk : k + 2 ≤ 4096) : rd16 m (0x10000 + k) = rd16 (kernelImage img) k := by
  simp only [rd16, Nat.add_assoc]
  rw [rd8_staged img m hm k (by omega), rd8_staged img m hm (k + 1) (by omega)]

theorem hdrAt_staged (img : Nat → Nat) (m : Mem) (hm : Staged img m) (a : Nat)
    (ha : a + 32 ≤ 4096) : hdrAt m (0x10000 + a) = hdrAt (kernelImage img) a := by
  simp only [hdrAt, Nat.add_assoc, proghdr_off, proghdr_paddr, proghdr_filesz, proghdr_memsz]
  rw [rd32_staged img m hm _ (by omega), rd32_staged img m hm _ (by omega),
    rd32_staged img m hm _ (by omega), rd32_staged img m hm _ (by omega)]

theorem loadPost_ide (h : Hdr) (s : Machine) :
    (loadPost h s).ide.image = s.ide.image ∧ (loadPost h s).ide.lag = s.ide.lag ∧
    (loadPost h s).ide.busy ≤ s.ide.busy := by
  obtain ⟨h1, h2, _, h4⟩ := segPost_ide (segSectors h.paddr h.filesz h.off)
    (segStart h.paddr h.off) (h.off / 512 + 1) s
  unfold loadPost
  by_cases hz : h.memsz > h.filesz
  · simp only [hz, if_true, stosb]
    exact ⟨h1, h2, h4⟩
  · simp only [hz, if_false]
    exact ⟨h1, h2, h4⟩

theorem loadPost_mem (h : Hdr) (s : Machine) (x : Nat) :
    (loadPost h s).mem x =
      if h.filesz < h.memsz ∧ x < WORD ∧
          (x + WORD - (h.paddr + h.filesz) % WORD) % WORD < h.memsz - h.filesz then 0
      else if segStart h.paddr h.off ≤ x ∧
          x < segStart h.paddr h.off + 512 * segSectors h.paddr h.filesz h.off then
        s.ide.byteAt (512 * (h.off / 512 + 1) + (x - segStart h.paddr h.off))
      else s.mem x := by
  unfold loadPost
  by_cases hz : h.memsz > h.filesz
  · simp only [hz, if_true, stosb]
    rw [stosbLoop_eq]
    simp only [fillMem, Nat.mod_mod, segPost_mem]
    have hz2 : h.filesz < h.memsz := hz
    simp only [hz2, true_and]
  · simp [hz, segPost_mem]

theorem loadPost_frame (h : Hdr) (s : Machine) (x : Nat) (hx : ¬ h.writes x) :
    (loadPost h s).mem x = s.mem x := by
  rw [loadPost_mem, if_neg (fun hh => hx (Or.inr hh)), if_neg (fun hh => hx (Or.inl hh))]

theorem loadPost_staged (img : Nat → Nat) (h : Hdr) (s : Machine) (hs : h.spares)
    (hm : Staged img s.mem) : Staged img (loadPost h s).mem := by
  intro x h1 h2
  rw [loadPost_frame h s x (hs.2 x h1 h2)]
  exact hm x h1 h2

theorem loadPost_trace (h : Hdr) (s : Machine) (hb : s.ide.busy = 0) :
    (loadPost h s).trace = s.trace ++ loadTrace h s.ide.lag := by
  unfold loadPost loadTrace
  by_cases hz : h.memsz > h.filesz
  · simp only [hz, if_true, stosb, segPost_trace, hb, List.append_assoc]
  · simp only [hz, if_false, segPost_trace, hb, List.append_nil]

theorem ends_sectors (h : Hdr) (he : h.ends) : segSectors h.paddr h.filesz h.off < 8388608 := by
  simp only [Hdr.ends, WORD] at he
  omega

theorem phLoop_step (f ph eph : Nat) (s : Machine) (h : Hdr) (hlt : ph < eph)
    (hh : hdrAt s.mem ph = h) (he : h.ends) (hf : 8388608 + s.ide.lag < f + 1)
    (hb : s.ide.busy < f + 1)
    (hh1 : hdrAt (segPost (segSectors h.paddr h.filesz h.off) (segStart h.paddr h.off)
      (h.off / 512 + 1) s).mem ph = h) :
    phLoop (f + 1) ph eph s = phLoop f ((ph + proghdr_size) % WORD) eph (loadPost h s) := by
  have hoff : h.off < WORD := by rw [← hh]; exact rd32_lt _ _
  have hrun := readseg_eq (f + 1) h.paddr h.filesz h.off s
    (by have := ends_sectors h he; omega) hb he hoff
  have hstep : phLoop (f + 1) ph eph s =
      (readseg (f + 1) (hdrAt s.mem ph).paddr (hdrAt s.mem ph).filesz (hdrAt s.mem ph).off s).bind
        fun s1 =>
          phLoop f ((ph + proghdr_size) % WORD) eph
            (if (hdrAt s1.mem ph).memsz > (hdrAt s1.mem ph).filesz then
              stosb (((hdrAt s.mem ph).paddr + (hdrAt s1.mem ph).filesz) % WORD) 0
                ((hdrAt s1.mem ph).memsz - (hdrAt s1.mem ph).filesz) s1
            else s1) := by
    rw [phLoop, if_pos hlt]
    rfl
  rw [hstep, hh, hrun]
  simp only [Option.some_bind]
  rw [hh1]
  rfl

theorem phLoop_eq : ∀ (hs : List Hdr) (fuel a : Nat) (s : Machine) (img : Nat → Nat),
    s.ide.image = img → Staged img s.mem → a + 32 * hs.length ≤ 4096 →
    (∀ k (hk : k < hs.length), hs[k] = hdrAt (kernelImage img) (a + 32 * k)) →
    (∀ h ∈ hs, h.spares) →
    hs.length + 8388608 + s.ide.lag + s.ide.busy < fuel →
    phLoop fuel (0x10000 + a) (0x10000 + a + 32 * hs.length) s = some (loadAll hs s) := by
  intro hs
  induction hs with
  | nil =>
    intro fuel a s img _ _ _ _ _ hf
    obtain ⟨f, rfl⟩ : ∃ f, fuel = f + 1 := ⟨fuel - 1, by omega⟩
    simp [phLoop, loadAll]
  | cons h t ih =>
    intro fuel a s img himg hm ha hmatch hsp hf
    obtain ⟨f, rfl⟩ : ∃ f, fuel = f + 1 := ⟨fuel - 1, by omega⟩
    simp only [List.length_cons] at ha hf
    have hh : hdrAt s.mem (0x10000 + a) = h := by
      rw [hdrAt_staged img s.mem hm a (by omega)]
      have := hmatch 0 (by simp)
      simpa using this.symm
    have hspares := hsp h (List.mem_cons_self _ _)
    have hoff : h.off < WORD := by rw [← hh]; exact rd32_lt _ _
    have hrun := readseg_eq (f + 1) h.paddr h.filesz h.off s
      (by have := ends_sectors h hspares.1; omega) (by omega) hspares.1 hoff
    have hm1 : Staged img (segPost (segSectors h.paddr h.filesz h.off)
        (segStart h.paddr h.off) (h.off / 512 + 1) s).mem := by
      intro x h1 h2
      rw [segPost_mem, if_neg (fun hx => hspares.2 x h1 h2 (Or.inl hx))]
      exact hm x h1 h2
    have hh1 : hdrAt (segPost (segSectors h.paddr h.filesz h.off)
        (segStart h.paddr h.off) (h.off / 512 + 1) s).mem (0x10000 + a) = h := by
      rw [hdrAt_staged img _ hm1 a (by omega)]
      have := hmatch 0 (by simp)
      simpa using this.symm
    have hstep : phLoop (f + 1) (0x10000 + a) (0x10000 + a + 32 * (t.length + 1)) s =
        (readseg (f + 1) (hdrAt s.mem (0x10000 + a)).paddr (hdrAt s.mem (0x10000 + a)).filesz
            (hdrAt s.mem (0x10000 + a)).off s).bind fun s1 =>
          phLoop f ((0x10000 + a + proghdr_size) % WORD) (0x10000 + a + 32 * (t.length + 1))
            (if (hdrAt s1.mem (0x10000 + a)).memsz > (hdrAt s1.mem (0x10000 + a)).filesz then
              stosb (((hdrAt s.mem (0x10000 + a)).paddr + (hdrAt s1.mem (0x10000 + a)).filesz)
                  % WORD) 0
                ((hdrAt s1.mem (0x10000 + a)).memsz - (hdrAt s1.mem (0x10000 + a)).filesz) s1
            else s1) := by
      have hlt : 0x10000 + a < 0x10000 + a + 32 * (t.length + 1) := by omega
      rw [phLoop, if_pos hlt]
      rfl
    rw [List.length_cons, hstep, hh, hrun]
    simp only [Option.some_bind]
    rw [hh1]
    have hnext : (0x10000 + a + proghdr_size) % WORD = 0x10000 + (a + 32) := by
      simp only [proghdr_size, WORD]
      omega
    have hend : 0x10000 + a + 32 * (t.length + 1) = 0x10000 + (a + 32) + 32 * t.length := by
      omega
    rw [hnext, hend]
    obtain ⟨i1, i2, i3⟩ := loadPost_ide h s
    have := ih f (a + 32) (loadPost h s) img (by rw [i1, himg])
      (loadPost_staged img h s hspares hm) (by omega)
      (fun k hk => by
        have := hmatch (k + 1) (by simp; omega)
        simp only [List.getElem_cons_succ] at this
        rw [this]
        congr 1
        omega)
      (fun h' hh' => hsp h' (List.mem_cons_of_mem _ hh')) (by omega)
    rw [loadAll]
    exact this

theorem loadAll_ide : ∀ (hs : List Hdr) (s : Machine),
    (loadAll hs s).ide.image = s.ide.image ∧ (loadAll hs s).ide.lag = s.ide.lag ∧
    (loadAll hs s).ide.busy ≤ s.ide.busy := by
  intro hs
  induction hs with
  | nil => intro s; exact ⟨rfl, rfl, le_refl _⟩
  | cons h t ih =>
    intro s
    obtain ⟨a1, a2, a3⟩ := loadPost_ide h s
    obtain ⟨b1, b2, b3⟩ := ih (loadPost h s)
    rw [loadAll]
    exact ⟨b1.trans a1, b2.trans a2, le_trans b3 a3⟩

theorem loadAll_frame : ∀ (hs : List Hdr) (s : Machine) (x : Nat),
    (∀ h ∈ hs, ¬ h.writes x) → (loadAll hs s).mem x = s.mem x := by
  intro hs
  induction hs with
  | nil => intro s x _; rfl
  | cons h t ih =>
    intro s x hx
    rw [loadAll, ih _ _ (fun h' hh' => hx h' (List.mem_cons_of_mem _ hh')),
      loadPost_frame h s x (hx h (List.mem_cons_self _ _))]

theorem loadAll_trace : ∀ (hs : List Hdr) (s : Machine), s.ide.busy = 0 →
    (loadAll hs s).trace = s.trace ++ loadAllTrace hs s.ide.lag := by
  intro hs
  induction hs with
  | nil => intro s _; simp [loadAll, loadAllTrace]
  | cons h t ih =>
    intro s hb
    obtain ⟨_, a2, a3⟩ := loadPost_ide h s
    rw [loadAll, ih (loadPost h s) (by omega), loadPost_trace h s hb, a2, loadAllTrace,
      List.append_assoc]

theorem header_read (fuel : Nat) (s : Machine) (hf : 8 + s.ide.lag < fuel)
    (hb : s.ide.busy < fuel) :
    readseg fuel 0x10000 4096 0 s = some (segPost 8 0x10000 1 s) :=
  readseg_nowrap fuel 0x10000 4096 0 s (by decide) (by decide) (by decide) hf hb

theorem header_staged (s : Machine) : Staged s.ide.image (segPost 8 0x10000 1 s).mem := by
  intro x h1 h2
  rw [segPost_mem, if_pos ⟨h1, by omega⟩]
  rfl

theorem imageHdrs_length (img : Nat → Nat) :
    (imageHdrs img).length = imagePhnum img ∧ imagePhnum img < 65536 := by
  refine ⟨by simp [imageHdrs], ?_⟩
  have h0 := rd8_lt (kernelImage img) elfhdr_phnum
  have h1 := rd8_lt (kernelImage img) (elfhdr_phnum + 1)
  simp only [imagePhnum, rd16]
  omega

theorem bootmain_returns (fuel : Nat) (s : Machine) (hf : 8 + s.ide.lag < fuel)
    (hb : s.ide.busy < fuel) (hmagic : imageMagic s.ide.image ≠ ELF_MAGIC) :
    bootmain fuel s = some (Outcome.returned, segPost 8 0x10000 1 s) := by
  have hm : rd32 (segPost 8 0x10000 1 s).mem 0x10000 = imageMagic s.ide.image :=
    rd32_staged s.ide.image _ (header_staged s) 0 (by omega)
  unfold bootmain
  simp only [header_read fuel s hf hb, Option.some_bind]
  rw [hm, if_pos hmagic]

theorem bootmain_enters (fuel : Nat) (s : Machine)
    (hf : 16777216 + s.ide.lag + s.ide.busy ≤ fuel)
    (hmagic : imageMagic s.ide.image = ELF_MAGIC)
    (htab : imagePhoff s.ide.image + 32 * imagePhnum s.ide.image ≤ 4096)
    (hsp : ∀ h ∈ imageHdrs s.ide.image, h.spares) :
    bootmain fuel s =
      some (Outcome.entered (imageEntry s.ide.image),
        { loadAll (imageHdrs s.ide.image) (segPost 8 0x10000 1 s) with
          trace := (loadAll (imageHdrs s.ide.image) (segPost 8 0x10000 1 s)).trace ++
            [Event.jump (imageEntry s.ide.image)] }) := by
  obtain ⟨hlen, hnum⟩ := imageHdrs_length s.ide.image
  obtain ⟨i1, i2, i3, _⟩ := segPost_ide 8 0x10000 1 s
  have hst := header_staged s
  have hm : rd32 (segPost 8 0x10000 1 s).mem 0x10000 = imageMagic s.ide.image :=
    rd32_staged s.ide.image _ hst 0 (by omega)
  have hphoff : rd32 (segPost 8 0x10000 1 s).mem (0x10000 + elfhdr_phoff) =
      imagePhoff s.ide.image := rd32_staged s.ide.image _ hst _ (by decide)
  have hphnum : rd16 (segPost 8 0x10000 1 s).mem (0x10000 + elfhdr_phnum) =
      imagePhnum s.ide.image := rd16_staged s.ide.image _ hst _ (by decide)
  have hloop := phLoop_eq (imageHdrs s.ide.image) fuel (imagePhoff s.ide.image)
    (segPost 8 0x10000 1 s) s.ide.image i1 hst (by rw [hlen]; exact htab)
    (fun k hk => by simp [imageHdrs, proghdr_size]) hsp (by rw [hlen, i2, i3 (by decide)]; omega)
  have hst2 : Staged s.ide.image (loadAll (imageHdrs s.ide.image) (segPost 8 0x10000 1 s)).mem := by
    intro x h1 h2
    rw [loadAll_frame _ _ _ (fun h hh => (hsp h hh).2 x h1 h2)]
    exact hst x h1 h2
  have hentry : rd32 (loadAll (imageHdrs s.ide.image) (segPost 8 0x10000 1 s)).mem
      (0x10000 + elfhdr_entry) = imageEntry s.ide.image :=
    rd32_staged s.ide.image _ hst2 _ (by decide)
  have hph : (0x10000 + imagePhoff s.ide.image) % WORD = 0x10000 + imagePhoff s.ide.image :=
    Nat.mod_eq_of_lt (by simp only [WORD]; omega)
  have heph : (0x10000 + imagePhoff s.ide.image + proghdr_size * imagePhnum s.ide.image) % WORD =
      0x10000 + imagePhoff s.ide.image + 32 * (imageHdrs s.ide.image).length := by
    rw [hlen]
    exact Nat.mod_eq_of_lt (by simp only [WORD, proghdr_size]; omega)
  unfold bootmain
  simp only [header_read fuel s (by omega) (by omega), Option.some_bind]
  rw [hm, if_neg (fun hne => hne hmagic), hphoff, hphnum, hph, heph, hloop]
  simp only [Option.some_bind]
  rw [hentry]

theorem bootmain_returned_magic (fuel : Nat) (s s1 : Machine) (hf : 8 + s.ide.lag < fuel)
    (hb : s.ide.busy < fuel) (hret : bootmain fuel s = some (Outcome.returned, s1)) :
    imageMagic s.ide.image ≠ ELF_MAGIC := by
  intro hmagic
  have hm : rd32 (segPost 8 0x10000 1 s).mem 0x10000 = imageMagic s.ide.image :=
    rd32_staged s.ide.image _ (header_staged s) 0 (by omega)
  unfold bootmain at hret
  simp only [header_read fuel s hf hb, Option.some_bind] at hret
  rw [hm, if_neg (fun hne => hne hmagic)] at hret
  cases hloop : phLoop fuel
      ((0x10000 + rd32 (segPost 8 0x10000 1 s).mem (0x10000 + elfhdr_phoff)) % WORD)
      (((0x10000 + rd32 (segPost 8 0x10000 1 s).mem (0x10000 + elfhdr_phoff)) % WORD
        + proghdr_size * rd16 (segPost 8 0x10000 1 s).mem (0x10000 + elfhdr_phnum)) % WORD)
      (segPost 8 0x10000 1 s) with
  | none => rw [hloop] at hret; simp at hret
  | some s2 => rw [hloop] at hret; simp at hret

/-! ## The example images -/

theorem twoSeg_fields :
    imageMagic twoSegDisk = ELF_MAGIC ∧ imageEntry twoSegDisk = 0x10000C ∧
    imagePhoff twoSegDisk = 52 ∧ imagePhnum twoSegDisk = 2 ∧
    imageHdrs twoSegDisk =
      [{ off := 0x1000, paddr := 0x100000, filesz := 100, memsz := 100 },
       { off := 0x2000, paddr := 0x200000, filesz := 50, memsz := 200 }] := by
  refine ⟨by decide, by decide, by decide, by decide, by decide⟩

theorem loadTrace_proj (h : Hdr) (lag : Nat) :
    jumps (loadTrace h lag) = [] ∧
    readsectCalls (loadTrace h lag) =
      (List.range (segSectors h.paddr h.filesz h.off)).map
        (fun j => (segStart h.paddr h.off + 512 * j, h.off / 512 + 1 + j)) ∧
    fills (loadTrace h lag) =
      (if h.memsz > h.filesz then [((h.paddr + h.filesz) % WORD, 0, h.memsz - h.filesz)]
       else []) := by
  obtain ⟨a1, _, a3, a4⟩ := segTrace_proj (segSectors h.paddr h.filesz h.off) 0 lag
    (segStart h.paddr h.off) (h.off / 512 + 1)
  unfold loadTrace
  rw [jumps_append, readsectCalls_append, fills_append, a1, a3, a4]
  by_cases hz : h.memsz > h.filesz
  · simp only [hz, if_true]
    exact ⟨rfl, by simp [readsectCalls], rfl⟩
  · simp only [hz, if_false]
    exact ⟨rfl, by simp [readsectCalls], rfl⟩

theorem loadAllTrace_proj : ∀ (hs : List Hdr) (lag : Nat),
    jumps (loadAllTrace hs lag) = [] ∧
    readsectCalls (loadAllTrace hs lag) =
      hs.flatMap (fun h => (List.range (segSectors h.paddr h.filesz h.off)).map
        (fun j => (segStart h.paddr h.off + 512 * j, h.off / 512 + 1 + j))) ∧
    fills (loadAllTrace hs lag) =
      hs.flatMap (fun h =>
        if h.memsz > h.filesz then [((h.paddr + h.filesz) % WORD, 0, h.memsz - h.filesz)]
        else []) := by
  intro hs
  induction hs with
  | nil => intro lag; exact ⟨rfl, rfl, rfl⟩
  | cons h t ih =>
    intro lag
    obtain ⟨a1, a2, a3⟩ := loadTrace_proj h lag
    obtain ⟨b1, b2, b3⟩ := ih lag
    rw [loadAllTrace, jumps_append, readsectCalls_append, fills_append, a1, a2, a3, b1, b2, b3]
    simp only [List.flatMap_cons]
    exact ⟨rfl, trivial, trivial⟩

theorem loadAllTrace_jumps (hs : List Hdr) (lag : Nat) : jumps (loadAllTrace hs lag) = [] :=
  (loadAllTrace_proj hs lag).1

theorem loadPost_loaded (h : Hdr) (s : Machine) (h1 : h.off % 512 ≤ h.paddr)
    (h2 : h.paddr + h.filesz + 511 < WORD) (h3 : h.paddr + h.memsz ≤ WORD) :
    Loaded s.ide.image (loadPost h s).mem h := by
  obtain ⟨hs, hn, _, hc⟩ := nowrap_shape h.paddr h.filesz h.off h1 h2
  simp only [WORD] at h2 h3
  constructor
  · intro i hi
    rw [loadPost_mem, if_neg (fun hh => by simp only [WORD] at hh; omega), hs, hn,
      if_pos ⟨by omega, by omega⟩]
    simp only [Ide.byteAt]
    congr 2
    omega
  · intro j hj1 hj2
    rw [loadPost_mem, if_pos ⟨by omega, by simp only [WORD]; omega, by simp only [WORD]; omega⟩]

theorem loadAll_loaded : ∀ (hs : List Hdr) (s : Machine),
    (∀ h ∈ hs, h.off % 512 ≤ h.paddr ∧ h.paddr + h.filesz + 511 < WORD ∧
      h.paddr + h.memsz ≤ WORD) →
    hs.Pairwise (fun a b => ∀ x, a.covers x → ¬ b.writes x) →
    ∀ h ∈ hs, h.filesz ≤ h.memsz → Loaded s.ide.image (loadAll hs s).mem h := by
  intro hs
  induction hs with
  | nil => intro s _ _ h hh; cases hh
  | cons a t ih =>
    intro s hw hp h hh hfm
    obtain ⟨hpa, hpt⟩ := List.pairwise_cons.mp hp
    rw [loadAll]
    rcases List.mem_cons.mp hh with rfl | hht
    · obtain ⟨w1, w2, w3⟩ := hw h (List.mem_cons_self _ _)
      obtain ⟨l1, l2⟩ := loadPost_loaded h s w1 w2 w3
      constructor
      · intro i hi
        rw [loadAll_frame t _ _ (fun b hb => hpa b hb _ ⟨by omega, by omega⟩)]
        exact l1 i hi
      · intro j hj1 hj2
        rw [loadAll_frame t _ _ (fun b hb => hpa b hb _ ⟨by omega, by omega⟩)]
        exact l2 j hj1 hj2
    · have := ih (loadPost a s) (fun b hb => hw b (List.mem_cons_of_mem _ hb)) hpt h hht hfm
      rw [(loadPost_ide a s).1] at this
      exact this

theorem writes_iff_touches (h : Hdr) (x : Nat) (h0 : h.filesz ≤ h.memsz)
    (h1 : h.off % 512 ≤ h.paddr) (h2 : h.paddr + h.filesz + 511 < WORD)
    (h3 : h.paddr + h.memsz ≤ WORD) : h.writes x ↔ h.touches x := by
  obtain ⟨hs, hn, _, _⟩ := nowrap_shape h.paddr h.filesz h.off h1 h2
  simp only [Hdr.writes, Hdr.touches, hs, hn]
  simp only [WORD] at h2 h3 ⊢
  constructor
  · rintro (hh | hh)
    · exact Or.inl hh
    · exact Or.inr (by omega)
  · rintro (hh | hh)
    · exact Or.inl hh
    · exact Or.inr (by omega)

theorem spares_of_touches (h : Hdr) (h0 : h.filesz ≤ h.memsz)
    (h1 : h.off % 512 ≤ h.paddr) (h2 : h.paddr + h.filesz + 511 < WORD)
    (h3 : h.paddr + h.memsz ≤ WORD)
    (hst : ∀ x, 0x10000 ≤ x → x < 0x11000 → ¬ h.touches x) : h.spares := by
  obtain ⟨hs, hn, hw, _⟩ := nowrap_shape h.paddr h.filesz h.off h1 h2
  refine ⟨by rw [Hdr.ends, hs, hn]; exact hw, fun x a b hwr => hst x a b ?_⟩
  exact (writes_iff_touches h x h0 h1 h2 h3).mp hwr

/-! ## The statements about `bootmain` -/

/-- C2: when the first four bytes of the image (the bytes staged at 0x10000)
differ from `ELF_MAGIC`, whatever the rest of the image, `bootmain` returns to
its caller; the only calls of `readsect` are those of the header sectors 1..8
to `0x10000, 0x10200, ..`, there is no fill and no control transfer, and every
byte outside `[0x10000, 0x11000)` is unchanged. -/
theorem bootmain_rejects (fuel : Nat) (s : Machine) (hf : 8 + s.ide.lag < fuel)
    (hb : s.ide.busy < fuel) (hmagic : imageMagic s.ide.image ≠ ELF_MAGIC) :
    ∃ s1, bootmain fuel s = some (Outcome.returned, s1) ∧
      rd32 s1.mem 0x10000 = imageMagic s.ide.image ∧
      readsectCalls (newEvents s s1) =
        [(0x10000, 1), (0x10200, 2), (0x10400, 3), (0x10600, 4), (0x10800, 5), (0x10A00, 6),
         (0x10C00, 7), (0x10E00, 8)] ∧
      transfers (newEvents s s1) =
        (List.range 8).map (fun j => (0x1F0, 0x10000 + 512 * j, 128)) ∧
      fills (newEvents s s1) = [] ∧ jumps (newEvents s s1) = [] ∧
      ∀ x, ¬ (0x10000 ≤ x ∧ x < 0x11000) → s1.mem x = s.mem x := by
  refine ⟨_, bootmain_returns fuel s hf hb hmagic,
    rd32_staged s.ide.image _ (header_staged s) 0 (by omega), ?_⟩
  obtain ⟨a1, a2, a3, a4⟩ := segTrace_proj 8 s.ide.busy s.ide.lag 0x10000 1
  rw [newEvents_append _ _ _ (segPost_trace _ _ _ _)]
  refine ⟨by rw [a1]; rfl, a2, a3, a4, ?_⟩
  intro x hx
  rw [segPost_mem, if_neg (fun hh => hx ⟨hh.1, by omega⟩)]

/-- C2 on the image whose first four bytes are 00 00 00 00. -/
theorem bootmain_rejects_witness :
    ∃ s1, bootmain 11 (bootMachine badMagicDisk) = some (Outcome.returned, s1) ∧
      rd32 s1.mem 0x10000 = imageMagic (bootMachine badMagicDisk).ide.image ∧
      readsectCalls (newEvents (bootMachine badMagicDisk) s1) =
        [(0x10000, 1), (0x10200, 2), (0x10400, 3), (0x10600, 4), (0x10800, 5), (0x10A00, 6),
         (0x10C00, 7), (0x10E00, 8)] ∧
      transfers (newEvents (bootMachine badMagicDisk) s1) =
        (List.range 8).map (fun j => (0x1F0, 0x10000 + 512 * j, 128)) ∧
      fills (newEvents (bootMachine badMagicDisk) s1) = [] ∧
      jumps (newEvents (bootMachine badMagicDisk) s1) = [] ∧
      ∀ x, ¬ (0x10000 ≤ x ∧ x < 0x11000) → s1.mem x = (bootMachine badMagicDisk).mem x :=
  bootmain_rejects 11 (bootMachine badMagicDisk) (by decide) (by decide) (by decide)

/-- C1 (amended): for a disk image with the ELF magic whose program-header
table lies in the 4096 staged bytes and whose headers have `memsz ≥ filesz`, no
address wrap-around, and writes (the whole sectors read for the header and its
zero-fill) that fall neither in the staging buffer nor in the destination range
of a header listed before, `bootmain` reaches the kernel entry with every
header loaded: `mem[paddr + i]` is image byte `off + i` (disk byte
`512 + off + i`) for `i < filesz` and `mem[paddr + j] = 0` for
`filesz ≤ j < memsz`. -/
theorem bootmain_loads_segments (fuel : Nat) (s : Machine)
    (hf : 16777216 + s.ide.lag + s.ide.busy ≤ fuel)
    (hmagic : imageMagic s.ide.image = ELF_MAGIC)
    (htab : imagePhoff s.ide.image + 32 * imagePhnum s.ide.image ≤ 4096)
    (hwf : ∀ h ∈ imageHdrs s.ide.image, h.filesz ≤ h.memsz ∧ h.off % 512 ≤ h.paddr ∧
      h.paddr + h.filesz + 511 < WORD ∧ h.paddr + h.memsz ≤ WORD)
    (hstage : ∀ h ∈ imageHdrs s.ide.image, ∀ x, 0x10000 ≤ x → x < 0x11000 → ¬ h.touches x)
    (hord : (imageHdrs s.ide.image).Pairwise (fun a b => ∀ x, a.covers x → ¬ b.touches x)) :
    ∃ s1, bootmain fuel s = some (Outcome.entered (imageEntry s.ide.image), s1) ∧
      ∀ h ∈ imageHdrs s.ide.image,
        (∀ i, i < h.filesz → s1.mem (h.paddr + i) = s.ide.byteAt (512 + h.off + i)) ∧
        (∀ j, h.filesz ≤ j → j < h.memsz → s1.mem (h.paddr + j) = 0) := by
  have hsp : ∀ h ∈ imageHdrs s.ide.image, h.spares := fun h hh =>
    spares_of_touches h (hwf h hh).1 (hwf h hh).2.1 (hwf h hh).2.2.1 (hwf h hh).2.2.2
      (hstage h hh)
  refine ⟨_, bootmain_enters fuel s hf hmagic htab hsp, ?_⟩
  intro h hh
  have hord2 : (imageHdrs s.ide.image).Pairwise (fun a b => ∀ x, a.covers x → ¬ b.writes x) := by
    have hmem : ∀ b ∈ imageHdrs s.ide.image, ∀ x, b.writes x → b.touches x := fun b hb x hx =>
      (writes_iff_touches b x (hwf b hb).1 (hwf b hb).2.1 (hwf b hb).2.2.1 (hwf b hb).2.2.2).mp hx
    refine (List.Pairwise.and_mem.mp hord).imp ?_
    intro a b hab x hx hwr
    exact hab.2.2 x hx (hmem b hab.2.1 x hwr)
  have := loadAll_loaded (imageHdrs s.ide.image) (segPost 8 0x10000 1 s)
    (fun b hb => (hwf b hb).2) hord2 h hh (hwf h hh).1
  rw [(segPost_ide 8 0x10000 1 s).1] at this
  exact this

/-- C1 (amended) on the two-segment image of the specification: 100 image
bytes at 0x100000, 50 image bytes and 150 zero bytes at 0x200000. -/
theorem bootmain_loads_segments_witness :
    ∃ s1, bootmain 16777219 (bootMachine twoSegDisk) = some (Outcome.entered 0x10000C, s1) ∧
      (∀ i, i < 100 → s1.mem (0x100000 + i) = twoSegDisk (512 + 0x1000 + i) % 256) ∧
      (∀ i, i < 50 → s1.mem (0x200000 + i) = twoSegDisk (512 + 0x2000 + i) % 256) ∧
      (∀ j, 50 ≤ j → j < 200 → s1.mem (0x200000 + j) = 0) := by
  obtain ⟨e1, e2, e3, e4, e5⟩ := twoSeg_fields
  have hn1 : sectorsNeeded 100 0x1000 = 1 := by decide
  have hn2 : sectorsNeeded 50 0x2000 = 1 := by decide
  obtain ⟨s1, hrun, hall⟩ := bootmain_loads_segments 16777219 (bootMachine twoSegDisk)
    (by decide) e1 (by decide) (by decide)
    (by
      intro h hh x h1 h2
      have hh2 : h ∈ imageHdrs twoSegDisk := hh
      rw [e5] at hh2
      simp only [List.mem_cons, List.mem_singleton, List.not_mem_nil, or_false] at hh2
      rcases hh2 with rfl | rfl
      · simp only [Hdr.touches, hn1]; omega
      · simp only [Hdr.touches, hn2]; omega)
    (by
      have hh2 : (bootMachine twoSegDisk).ide.image = twoSegDisk := rfl
      rw [hh2, e5]
      simp only [List.pairwise_cons, List.mem_singleton, List.not_mem_nil, forall_eq,
        List.Pairwise.nil, and_true, false_imp_iff, imp_true_iff]
      intro x hx
      simp only [Hdr.covers] at hx
      simp only [Hdr.touches, hn2]
      omega)
  have hh2 : (bootMachine twoSegDisk).ide.image = twoSegDisk := rfl
  rw [hh2, e2] at hrun
  rw [hh2, e5] at hall
  obtain ⟨a1, _⟩ := hall _ (List.mem_cons_self _ _)
  obtain ⟨b1, b2⟩ := hall _ (List.mem_cons_of_mem _ (List.mem_cons_self _ _))
  exact ⟨s1, hrun, a1, b1, b2⟩

/-- C1 as stated fails on an image that is well-formed in its sense: the
second segment starts 100 bytes into a disk sector, so its whole-sector read
starts 100 bytes below its `paddr` and overwrites the first segment; the first
byte of the zero-fill of the first header ends up non-zero. -/
theorem bootmain_overwrites_previous_segment :
    imageMagic adjacentDisk = ELF_MAGIC ∧
    imageHdrs adjacentDisk =
      [{ off := 0x1000, paddr := 0x100000, filesz := 50, memsz := 100 },
       { off := 0x1264, paddr := 0x100064, filesz := 10, memsz := 10 }] ∧
    WellFormed (imageHdrs adjacentDisk) ∧
    ∃ s1, bootmain 16777219 (bootMachine adjacentDisk) = some (Outcome.entered 0x10000C, s1) ∧
      s1.mem (0x100000 + 50) ≠ 0 := by
  have e1 : imageMagic adjacentDisk = ELF_MAGIC := by decide
  have e2 : imageEntry adjacentDisk = 0x10000C := by decide
  have e5 : imageHdrs adjacentDisk =
      [{ off := 0x1000, paddr := 0x100000, filesz := 50, memsz := 100 },
       { off := 0x1264, paddr := 0x100064, filesz := 10, memsz := 10 }] := by decide
  have hn1 : sectorsNeeded 50 0x1000 = 1 := by decide
  have hn2 : sectorsNeeded 10 0x1264 = 1 := by decide
  have hh2 : (bootMachine adjacentDisk).ide.image = adjacentDisk := rfl
  have hsp : ∀ h ∈ imageHdrs (bootMachine adjacentDisk).ide.image, h.spares := by
    intro h hh
    rw [hh2, e5] at hh
    simp only [List.mem_cons, List.mem_singleton, List.not_mem_nil, or_false] at hh
    rcases hh with rfl | rfl
    · refine spares_of_touches _ (by decide) (by decide) (by decide) (by decide) ?_
      intro x h1 h2
      simp only [Hdr.touches, hn1]; omega
    · refine spares_of_touches _ (by decide) (by decide) (by decide) (by decide) ?_
      intro x h1 h2
      simp only [Hdr.touches, hn2]; omega
  have hrun := bootmain_enters 16777219 (bootMachine adjacentDisk) (by decide) e1 (by decide) hsp
  rw [hh2, e2, e5] at hrun
  refine ⟨e1, e5, ?_, _, hrun, ?_⟩
  · rw [e5]
    refine ⟨by decide, ?_⟩
    simp
  · simp only [loadAll]
    have s1 : segStart 0x100064 0x1264 = 0x100000 := by decide
    have s2 : segSectors 0x100064 10 0x1264 = 1 := by decide
    rw [loadPost_mem]
    simp only [s1, s2, lt_irrefl, false_and, if_false]
    rw [if_pos (by decide)]
    have himg : (loadPost { off := 0x1000, paddr := 0x100000, filesz := 50, memsz := 100 }
        (segPost 8 0x10000 1 (bootMachine adjacentDisk))).ide.image = adjacentDisk := by
      rw [(loadPost_ide _ _).1, (segPost_ide _ _ _ _).1]
      rfl
    simp only [Ide.byteAt, himg]
    decide

/-- C3 (amended): for a disk image with the ELF magic whose program-header
table lies in the 4096 staged bytes and whose segments do not overwrite the
staging buffer (each sector loop ends and no sector read or zero-fill writes
into `[0x10000, 0x11000)`), `bootmain` ends in the kernel at the entry field of
the image; its events are those of the header read, then those of loading each
program header in table order (the calls of `readsect` are the eight of the
header, then for each header in table order those of its sectors; the fills
are those of the headers with `memsz > filesz` in table order), then a single
control transfer, which is the last event. And `bootmain` returns to its caller
only when the magic of the image is not `ELF_MAGIC`. -/
theorem bootmain_transfers_once (fuel : Nat) (s : Machine)
    (hf : 16777216 + s.ide.lag + s.ide.busy ≤ fuel) :
    (imageMagic s.ide.image = ELF_MAGIC →
      imagePhoff s.ide.image + 32 * imagePhnum s.ide.image ≤ 4096 →
      (∀ h ∈ imageHdrs s.ide.image, h.spares) →
      ∃ s1, bootmain fuel s = some (Outcome.entered (imageEntry s.ide.image), s1) ∧
        newEvents s s1 =
          segTrace 8 s.ide.busy s.ide.lag 0x10000 1 ++
            loadAllTrace (imageHdrs s.ide.image) s.ide.lag ++
            [Event.jump (imageEntry s.ide.image)] ∧
        jumps (segTrace 8 s.ide.busy s.ide.lag 0x10000 1 ++
          loadAllTrace (imageHdrs s.ide.image) s.ide.lag) = [] ∧
        jumps (newEvents s s1) = [imageEntry s.ide.image] ∧
        readsectCalls (newEvents s s1) =
          (List.range 8).map (fun j => (0x10000 + 512 * j, 1 + j)) ++
            (imageHdrs s.ide.image).flatMap (fun h =>
              (List.range (segSectors h.paddr h.filesz h.off)).map
                (fun j => (segStart h.paddr h.off + 512 * j, h.off / 512 + 1 + j))) ∧
        fills (newEvents s s1) =
          (imageHdrs s.ide.image).flatMap (fun h =>
            if h.memsz > h.filesz then
              [((h.paddr + h.filesz) % WORD, 0, h.memsz - h.filesz)]
            else [])) ∧
    (∀ s1, bootmain fuel s = some (Outcome.returned, s1) →
      imageMagic s.ide.image ≠ ELF_MAGIC) := by
  constructor
  · intro hmagic htab hsp
    refine ⟨_, bootmain_enters fuel s hf hmagic htab hsp, ?_⟩
    obtain ⟨_, i2, i3, _⟩ := segPost_ide 8 0x10000 1 s
    obtain ⟨c1, _, c3, c4⟩ := segTrace_proj 8 s.ide.busy s.ide.lag 0x10000 1
    obtain ⟨d1, d2, d3⟩ := loadAllTrace_proj (imageHdrs s.ide.image) s.ide.lag
    have htr : (loadAll (imageHdrs s.ide.image) (segPost 8 0x10000 1 s)).trace ++
        [Event.jump (imageEntry s.ide.image)] =
        s.trace ++ (segTrace 8 s.ide.busy s.ide.lag 0x10000 1 ++
          loadAllTrace (imageHdrs s.ide.image) s.ide.lag ++
          [Event.jump (imageEntry s.ide.image)]) := by
      rw [loadAll_trace _ _ (i3 (by decide)), segPost_trace, i2]
      simp only [List.append_assoc]
    have hj : jumps (segTrace 8 s.ide.busy s.ide.lag 0x10000 1 ++
        loadAllTrace (imageHdrs s.ide.image) s.ide.lag) = [] := by
      rw [jumps_append, c4, d1]
      rfl
    rw [newEvents_append _ _ _ htr]
    refine ⟨rfl, hj, ?_, ?_, ?_⟩
    · rw [jumps_append, hj]
      rfl
    · rw [readsectCalls_append, readsectCalls_append, c1, d2]
      exact List.append_nil _
    · rw [fills_append, fills_append, c3, d3]
      simp only [List.nil_append]
      exact List.append_nil _
  · intro s1 hret
    exact bootmain_returned_magic fuel s s1 (by omega) (by omega) hret

/-- C3 (amended) on the two-segment image of the specification: the eight
header sectors, then sector 9 to 0x100000 and sector 17 to 0x200000, one fill
of 150 zero bytes at 0x200032, then the transfer to 0x10000C. -/
theorem bootmain_transfers_once_witness :
    (∃ s1, bootmain 16777219 (bootMachine twoSegDisk) =
        some (Outcome.entered 0x10000C, s1) ∧
      jumps (newEvents (bootMachine twoSegDisk) s1) = [0x10000C] ∧
      readsectCalls (newEvents (bootMachine twoSegDisk) s1) =
        [(0x10000, 1), (0x10200, 2), (0x10400, 3), (0x10600, 4), (0x10800, 5), (0x10A00, 6),
         (0x10C00, 7), (0x10E00, 8), (0x100000, 9), (0x200000, 17)] ∧
      fills (newEvents (bootMachine twoSegDisk) s1) = [(0x200032, 0, 150)]) ∧
    (∀ s1, bootmain 16777219 (bootMachine twoSegDisk) = some (Outcome.returned, s1) →
      imageMagic twoSegDisk ≠ ELF_MAGIC) := by
  obtain ⟨e1, e2, e3, e4, e5⟩ := twoSeg_fields
  have hn1 : sectorsNeeded 100 0x1000 = 1 := by decide
  have hn2 : sectorsNeeded 50 0x2000 = 1 := by decide
  have hh2 : (bootMachine twoSegDisk).ide.image = twoSegDisk := rfl
  obtain ⟨hmain, hret⟩ := bootmain_transfers_once 16777219 (bootMachine twoSegDisk) (by decide)
  refine ⟨?_, hret⟩
  obtain ⟨s1, hrun, _, _, hj, hcalls, hfills⟩ := hmain e1 (by decide) (by
    intro h hh
    rw [hh2, e5] at hh
    simp only [List.mem_cons, List.mem_singleton, List.not_mem_nil, or_false] at hh
    rcases hh with rfl | rfl
    · refine spares_of_touches _ (by decide) (by decide) (by decide) (by decide) ?_
      intro x h1 h2
      simp only [Hdr.touches, hn1]; omega
    · refine spares_of_touches _ (by decide) (by decide) (by decide) (by decide) ?_
      intro x h1 h2
      simp only [Hdr.touches, hn2]; omega)
  rw [hh2, e2] at hrun hj
  rw [hh2, e5] at hcalls hfills
  exact ⟨s1, hrun, hj, hcalls.trans (by decide), hfills.trans (by decide)⟩

/-- C3 as stated fails on an image whose program-header table starts at image
offset 4096: the magic is right and the one segment of the image is far from
the staging buffer, but `bootmain` reads its program header at 0x11000, which
the header read never filled; it calls `readsect` for the eight header sectors
only and enters the kernel with the segment not loaded. -/
theorem bootmain_skips_far_table :
    imageMagic farTableDisk = ELF_MAGIC ∧ imagePhoff farTableDisk = 4096 ∧
    imageHdrs farTableDisk =
      [{ off := 0x2000, paddr := 0x100000, filesz := 100, memsz := 100 }] ∧
    (∀ h ∈ imageHdrs farTableDisk, h.spares) ∧
    ∃ s1, bootmain 16777219 (bootMachine farTableDisk) = some (Outcome.entered 0x10000C, s1) ∧
      readsectCalls (newEvents (bootMachine farTableDisk) s1) =
        [(0x10000, 1), (0x10200, 2), (0x10400, 3), (0x10600, 4), (0x10800, 5), (0x10A00, 6),
         (0x10C00, 7), (0x10E00, 8)] ∧
      s1.mem 0x100000 = 0 ∧ farTableDisk (512 + 0x2000) % 256 ≠ 0 := by
  have e1 : imageMagic farTableDisk = ELF_MAGIC := by decide
  have e2 : imageEntry farTableDisk = 0x10000C := by decide
  have e3 : imagePhoff farTableDisk = 4096 := by decide
  have e4 : imagePhnum farTableDisk = 1 := by decide
  have e5 : imageHdrs farTableDisk =
      [{ off := 0x2000, paddr := 0x100000, filesz := 100, memsz := 100 }] := by decide
  have hn1 : sectorsNeeded 100 0x2000 = 1 := by decide
  have hh2 : (bootMachine farTableDisk).ide.image = farTableDisk := rfl
  refine ⟨e1, e3, e5, ?_, ?_⟩
  · intro h hh
    rw [e5] at hh
    simp only [List.mem_singleton] at hh
    subst hh
    refine spares_of_touches _ (by decide) (by decide) (by decide) (by decide) ?_
    intro x h1 h2
    simp only [Hdr.touches, hn1]; omega
  · have hst := header_staged (bootMachine farTableDisk)
    obtain ⟨_, i2, i3, _⟩ := segPost_ide 8 0x10000 1 (bootMachine farTableDisk)
    have hm : rd32 (segPost 8 0x10000 1 (bootMachine farTableDisk)).mem 0x10000 = ELF_MAGIC :=
      (rd32_staged _ _ hst 0 (by omega)).trans e1
    have hphoff : rd32 (segPost 8 0x10000 1 (bootMachine farTableDisk)).mem
        (0x10000 + elfhdr_phoff) = 4096 := (rd32_staged _ _ hst _ (by decide)).trans e3
    have hphnum : rd16 (segPost 8 0x10000 1 (bootMachine farTableDisk)).mem
        (0x10000 + elfhdr_phnum) = 1 := (rd16_staged _ _ hst _ (by decide)).trans e4
    have hentry : rd32 (segPost 8 0x10000 1 (bootMachine farTableDisk)).mem
        (0x10000 + elfhdr_entry) = 0x10000C := (rd32_staged _ _ hst _ (by decide)).trans e2
    have hzero : ∀ x, 0x11000 ≤ x → (segPost 8 0x10000 1 (bootMachine farTableDisk)).mem x = 0 := by
      intro x hx
      rw [segPost_mem, if_neg (by omega)]
      rfl
    have hh : hdrAt (segPost 8 0x10000 1 (bootMachine farTableDisk)).mem 0x11000 =
        { off := 0, paddr := 0, filesz := 0, memsz := 0 } := by
      simp only [hdrAt, rd32, rd8, proghdr_off, proghdr_paddr, proghdr_filesz, proghdr_memsz,
        WORD, Nat.reduceAdd, Nat.reduceMod]
      simp [hzero]
    have hbody : loadPost { off := 0, paddr := 0, filesz := 0, memsz := 0 }
        (segPost 8 0x10000 1 (bootMachine farTableDisk)) =
        segPost 8 0x10000 1 (bootMachine farTableDisk) := rfl
    have hstep := phLoop_step 16777218 0x11000 0x11020
      (segPost 8 0x10000 1 (bootMachine farTableDisk))
      { off := 0, paddr := 0, filesz := 0, memsz := 0 } (by decide) hh
      (by unfold Hdr.ends; decide) (by rw [i2]; decide) (by rw [i3 (by decide)]; decide) hh
    have hrun : bootmain 16777219 (bootMachine farTableDisk) =
        some (Outcome.entered 0x10000C,
          { segPost 8 0x10000 1 (bootMachine farTableDisk) with
            trace := (segPost 8 0x10000 1 (bootMachine farTableDisk)).trace ++
              [Event.jump 0x10000C] }) := by
      unfold bootmain
      simp only [header_read 16777219 (bootMachine farTableDisk) (by decide) (by decide),
        Option.some_bind]
      rw [hm, if_neg (fun hne => hne rfl), hphoff, hphnum]
      have a1 : (0x10000 + 4096) % WORD = 0x11000 := by decide
      have a2 : (0x11000 + proghdr_size * 1) % WORD = 0x11020 := by decide
      have a3 : (0x11000 + proghdr_size) % WORD = 0x11020 := by decide
      rw [a1, a2, hstep, hbody, a3]
      have hdone : phLoop 16777218 0x11020 0x11020
          (segPost 8 0x10000 1 (bootMachine farTableDisk)) =
          some (segPost 8 0x10000 1 (bootMachine farTableDisk)) := by
        rw [phLoop, if_neg (by decide)]
      rw [hdone]
      simp only [Option.some_bind]
      rw [hentry]
    refine ⟨_, hrun, ?_, hzero 0x100000 (by decide), by decide⟩
    have htr : (segPost 8 0x10000 1 (bootMachine farTableDisk)).trace ++ [Event.jump 0x10000C] =
        (bootMachine farTableDisk).trace ++
          (segTrace 8 (bootMachine farTableDisk).ide.busy (bootMachine farTableDisk).ide.lag
            0x10000 1 ++ [Event.jump 0x10000C]) := by
      rw [segPost_trace, List.append_assoc]
    rw [newEvents_append _ _ _ htr, readsectCalls_append, (segTrace_proj _ _ _ _ _).1]
    rfl

/-! ## `startothers` -/

theorem waitStarted_eq (c : Nat) : ∀ (d fuel : Nat) (k : Kernel),
    k.wake c = some d → k.started c = 0 → d < fuel →
    waitStarted c fuel k =
      some { started := Function.update k.started c 1,
             wake := Function.update k.wake c none,
             nalloc := k.nalloc,
             trace := k.trace ++ List.replicate d (KEvent.poll c 0) ++ [KEvent.poll c 1] } := by
  intro d
  induction d with
  | zero =>
    intro fuel k hw hs hf
    obtain ⟨f, rfl⟩ : ∃ f, fuel = f + 1 := ⟨fuel - 1, by omega⟩
    simp [waitStarted, readStarted, hw]
  | succ d ih =>
    intro fuel k hw hs hf
    obtain ⟨f, rfl⟩ : ∃ f, fuel = f + 1 := ⟨fuel - 1, by omega⟩
    have hr : readStarted c k =
        (0, { k with wake := Function.update k.wake c (some d),
                     trace := k.trace ++ [KEvent.poll c 0] }) := by
      simp [readStarted, hw, hs]
    rw [waitStarted, hr]
    simp only [if_true]
    rw [ih f _ (by simp) (by simpa using hs) (by omega)]
    simp [List.replicate_succ]

theorem launchAllPost_trace (p : Platform) : ∀ (cs : List Nat) (k : Kernel),
    (launchAllPost p cs k).trace = k.trace ++ launchAllTrace p cs k.nalloc := by
  intro cs
  induction cs with
  | nil => intro k; simp [launchAllPost, launchAllTrace]
  | cons c t ih =>
    intro k
    rw [launchAllPost, ih]
    simp [launchPost, launchAllTrace]

theorem launchAllPost_started (p : Platform) : ∀ (cs : List Nat) (k : Kernel) (c : Nat),
    ((launchAllPost p cs k).started c = 1 ↔ (c ∈ cs ∨ k.started c = 1)) := by
  intro cs
  induction cs with
  | nil => intro k c; simp [launchAllPost]
  | cons a t ih =>
    intro k c
    rw [launchAllPost, ih]
    by_cases hca : c = a
    · subst hca
      simp [launchPost]
    · simp [launchPost, Function.update_noteq hca, hca]

theorem launchAllPost_untouched (p : Platform) : ∀ (cs : List Nat) (k : Kernel) (c : Nat),
    c ∉ cs → (launchAllPost p cs k).started c = k.started c := by
  intro cs
  induction cs with
  | nil => intro k c _; rfl
  | cons a t ih =>
    intro k c hc
    have hca : c ≠ a := fun h => hc (h ▸ List.mem_cons_self _ _)
    rw [launchAllPost, ih _ _ (fun h => hc (List.mem_cons_of_mem _ h))]
    simp [launchPost, Function.update_noteq hca]

theorem startLoop_eq (p : Platform) : ∀ (m c fuel : Nat) (k : Kernel),
    c + m = p.cpus.length → (∀ j, c ≤ j → k.started j = 0) →
    (∀ j, j < p.cpus.length → m + p.delay (p.apicid j) < fuel) → 0 < fuel →
    startLoop p 0x80007000 fuel c k = some (launchAllPost p (othersFrom p m c) k) := by
  intro m
  induction m with
  | zero =>
    intro c fuel k hc _ _ hf
    obtain ⟨f, rfl⟩ : ∃ f, fuel = f + 1 := ⟨fuel - 1, by omega⟩
    have : ¬ c < p.cpus.length := by omega
    simp [startLoop, this, othersFrom, launchAllPost]
  | succ m ih =>
    intro c fuel k hc hs hfuel hf
    obtain ⟨f, rfl⟩ : ∃ f, fuel = f + 1 := ⟨fuel - 1, by omega⟩
    have hlt : c < p.cpus.length := by omega
    have hf2 : ∀ j, j < p.cpus.length → m + p.delay (p.apicid j) < f := fun j hj => by
      have := hfuel j hj
      omega
    have hf3 : 0 < f := by
      have := hfuel c hlt
      omega
    by_cases hself : c = p.self
    · rw [startLoop, if_pos hlt, if_pos hself, othersFrom, if_pos hself]
      exact ih (c + 1) f k (by omega) (fun j hj => hs j (by omega)) hf2 hf3
    · rw [startLoop, if_pos hlt, if_neg hself, othersFrom, if_neg hself, launchAllPost]
      have a4 : (0x80007000 + WORD - 4) % WORD = 0x80006FFC := by decide
      have a8 : (0x80007000 + WORD - 8) % WORD = 0x80006FF8 := by decide
      have a12 : (0x80007000 + WORD - 12) % WORD = 0x80006FF4 := by decide
      have av : V2P 0x80007000 = 0x7000 := by decide
      simp only [a4, a8, a12, av, kalloc, store, lapicstartap]
      rw [waitStarted_eq c (p.delay (p.apicid c)) (f + 1) _ (by simp [hlt])
        (by simpa using hs c (le_refl _)) (by have := hfuel c hlt; omega)]
      simp only [Option.some_bind]
      have hpost : ({
          started := Function.update k.started c 1,
          wake := Function.update
            (fun j => if j < p.cpus.length ∧ p.apicid j = p.apicid c then
                some (p.delay (p.apicid c)) else k.wake j) c none,
          nalloc := k.nalloc + 1,
          trace := k.trace ++ [KEvent.kalloc (p.kalloc k.nalloc)] ++
            [KEvent.store 0x80006FFC ((p.kalloc k.nalloc + KSTACKSIZE) % WORD)] ++
            [KEvent.store 0x80006FF8 p.mpenter] ++
            [KEvent.store 0x80006FF4 (V2P p.entrypgdir)] ++
            [KEvent.startap (p.apicid c) 0x7000] ++
            List.replicate (p.delay (p.apicid c)) (KEvent.poll c 0) ++
            [KEvent.poll c 1] } : Kernel) = launchPost p c k := by
        simp [launchPost, launchTrace]
      rw [hpost]
      exact ih (c + 1) f (launchPost p c k) (by omega)
        (fun j hj => by
          have hne : j ≠ c := by omega
          simp only [launchPost, Function.update_noteq hne]
          exact hs j (by omega)) hf2 hf3

theorem othersFrom_mem (p : Platform) : ∀ (m c j : Nat),
    j ∈ othersFrom p m c ↔ c ≤ j ∧ j < c + m ∧ j ≠ p.self := by
  intro m
  induction m with
  | zero => intro c j; simp [othersFrom]; omega
  | succ m ih =>
    intro c j
    by_cases hself : c = p.self
    · rw [othersFrom, if_pos hself, ih]
      constructor
      · rintro ⟨h1, h2, h3⟩; exact ⟨by omega, by omega, h3⟩
      · rintro ⟨h1, h2, h3⟩; exact ⟨by omega, by omega, h3⟩
    · rw [othersFrom, if_neg hself, List.mem_cons, ih]
      constructor
      · rintro (h | ⟨h1, h2, h3⟩)
        · subst h; exact ⟨le_refl _, by omega, hself⟩
        · exact ⟨by omega, by omega, h3⟩
      · rintro ⟨h1, h2, h3⟩
        by_cases hj : j = c
        · exact Or.inl hj
        · exact Or.inr ⟨by omega, by omega, h3⟩

theorem othersFrom_length (p : Platform) : ∀ (m c : Nat),
    (othersFrom p m c).length = if c ≤ p.self ∧ p.self < c + m then m - 1 else m := by
  intro m
  induction m with
  | zero => intro c; simp [othersFrom]
  | succ m ih =>
    intro c
    by_cases hself : c = p.self
    · rw [othersFrom, if_pos hself, ih, if_neg (by omega), if_pos (by omega)]
      omega
    · rw [othersFrom, if_neg hself, List.length_cons, ih]
      by_cases hin : c + 1 ≤ p.self ∧ p.self < c + 1 + m
      · rw [if_pos hin, if_pos (by omega)]
        omega
      · rw [if_neg hin, if_neg (by omega)]

theorem othersFrom_sorted (p : Platform) : ∀ (m c : Nat),
    (othersFrom p m c).Pairwise (fun a b => a < b) := by
  intro m
  induction m with
  | zero => intro c; simp [othersFrom]
  | succ m ih =>
    intro c
    by_cases hself : c = p.self
    · rw [othersFrom, if_pos hself]
      exact ih (c + 1)
    · rw [othersFrom, if_neg hself, List.pairwise_cons]
      refine ⟨fun b hb => ?_, ih (c + 1)⟩
      have := (othersFrom_mem p m (c + 1) b).mp hb
      omega

theorem launchAllTrace_launches (p : Platform) : ∀ (cs : List Nat) (n : Nat),
    launches (launchAllTrace p cs n) = cs.map (fun c => (p.apicid c, 0x7000)) := by
  intro cs
  induction cs with
  | nil => intro n; rfl
  | cons c t ih =>
    intro n
    have h1 : launches (launchTrace p c n) = [(p.apicid c, 0x7000)] := by
      simp only [launches, launchTrace, List.filterMap_append]
      rw [filterMap_replicate_none _ _ rfl]
      rfl
    simp only [launchAllTrace, List.map_cons]
    rw [← ih (n + 1), ← List.singleton_append, ← h1]
    exact List.filterMap_append _ _ _

theorem apicid_inj (p : Platform) (hn : p.cpus.Nodup) (i j : Nat) (hi : i < p.cpus.length)
    (hj : j < p.cpus.length) (h : p.apicid i = p.apicid j) : i = j := by
  simp only [Platform.apicid] at h
  rw [List.getD_eq_getElem _ _ hi, List.getD_eq_getElem _ _ hj] at h
  exact (hn.getElem_inj_iff).mp h

/-- C7: for a processor table that contains the executing processor, on a
platform where every signalled processor sets its started flag after finitely
many reads, `startothers` returns; after copying the entry code its events
are, for each descriptor other than `self` in table order: the stack
allocation, the stores of `stack + KSTACKSIZE` at `code-4`, of `mpenter` at
`code-8` and of `V2P(entrypgdir)` at `code-12`, then one
`lapicstartap(c.apicid, 0x7000)`, then reads of `c.started` that see 0 until
the last one sees it set. So there are exactly `ncpu - 1` launches, one per
descriptor other than `self` and none for `self` (none carries the `apicid` of
`self` when the ids are distinct), each after its three parameter words and
after the previous descriptor's flag was read set. -/
theorem startothers_sequence (p : Platform) (fuel : Nat) (hself : p.self < p.cpus.length)
    (hfuel : ∀ j, j < p.cpus.length → p.cpus.length + p.delay (p.apicid j) < fuel) :
    ∃ k, startothers p fuel bootKernel = some k ∧
      k.trace = KEvent.memmove 0x80007000 p.entryother_start p.entryother_size ::
        launchAllTrace p (othersFrom p p.cpus.length 0) 0 ∧
      launches k.trace = (othersFrom p p.cpus.length 0).map (fun c => (p.apicid c, 0x7000)) ∧
      (othersFrom p p.cpus.length 0).length = p.cpus.length - 1 ∧
      (∀ c, c ∈ othersFrom p p.cpus.length 0 ↔ c < p.cpus.length ∧ c ≠ p.self) ∧
      (othersFrom p p.cpus.length 0).Pairwise (fun a b => a < b) ∧
      (∀ c, c ∈ othersFrom p p.cpus.length 0 → k.started c = 1) ∧
      k.started p.self = 0 ∧
      (p.cpus.Nodup → (p.apicid p.self, 0x7000) ∉ launches k.trace) := by
  have hmem : ∀ c, c ∈ othersFrom p p.cpus.length 0 ↔ c < p.cpus.length ∧ c ≠ p.self := by
    intro c
    rw [othersFrom_mem]
    constructor
    · rintro ⟨_, h2, h3⟩; exact ⟨by omega, h3⟩
    · rintro ⟨h2, h3⟩; exact ⟨by omega, by omega, h3⟩
  have hcode : P2V 0x7000 = 0x80007000 := by decide
  have hrun : startothers p fuel bootKernel =
      some (launchAllPost p (othersFrom p p.cpus.length 0)
        (memmove 0x80007000 p.entryother_start p.entryother_size bootKernel)) := by
    unfold startothers
    simp only [hcode]
    exact startLoop_eq p p.cpus.length 0 fuel _ (by omega) (fun j _ => rfl) hfuel
      (by have := hfuel p.self hself; omega)
  have htr : (launchAllPost p (othersFrom p p.cpus.length 0)
      (memmove 0x80007000 p.entryother_start p.entryother_size bootKernel)).trace =
      KEvent.memmove 0x80007000 p.entryother_start p.entryother_size ::
        launchAllTrace p (othersFrom p p.cpus.length 0) 0 := by
    rw [launchAllPost_trace]
    rfl
  have hl : launches (KEvent.memmove 0x80007000 p.entryother_start p.entryother_size ::
      launchAllTrace p (othersFrom p p.cpus.length 0) 0) =
      (othersFrom p p.cpus.length 0).map (fun c => (p.apicid c, 0x7000)) := by
    rw [← launchAllTrace_launches p _ 0]
    rfl
  refine ⟨_, hrun, htr, by rw [htr, hl], ?_, hmem, othersFrom_sorted p _ _, ?_, ?_, ?_⟩
  · rw [othersFrom_length, if_pos ⟨by omega, by omega⟩]
  · intro c hc
    exact (launchAllPost_started p _ _ c).mpr (Or.inl hc)
  · rw [launchAllPost_untouched p _ _ _ (fun h1 => ((hmem _).mp h1).2 rfl)]
    rfl
  · intro hn hin
    rw [htr, hl] at hin
    obtain ⟨c, hc, heq⟩ := List.mem_map.mp hin
    have hc2 := (hmem c).mp hc
    have : p.apicid c = p.apicid p.self := (Prod.mk.inj heq).1
    exact hc2.2 (apicid_inj p hn c p.self hc2.1 hself this)

/-- C7 on four descriptors with `self` the first: three launches, for the
descriptors 1, 2 and 3 in this order. -/
theorem startothers_sequence_witness :
    ∃ k, startothers quadPlatform 10 bootKernel = some k ∧
      k.trace = KEvent.memmove 0x80007000 0x8010A000 0x8A ::
        launchAllTrace quadPlatform [1, 2, 3] 0 ∧
      launches k.trace = [(1, 0x7000), (2, 0x7000), (3, 0x7000)] ∧
      k.started 1 = 1 ∧ k.started 2 = 1 ∧ k.started 3 = 1 ∧ k.started 0 = 0 := by
  obtain ⟨k, h1, h2, h3, _, _, _, h7, h8, _⟩ :=
    startothers_sequence quadPlatform 10 (by decide) (by decide)
  have ho : othersFrom quadPlatform quadPlatform.cpus.length 0 = [1, 2, 3] := by decide
  rw [ho] at h2 h3 h7
  exact ⟨k, h1, h2, h3, h7 1 (by decide), h7 2 (by decide), h7 3 (by decide), h8⟩

set_option maxRecDepth 100000 in
/-- C8: `entrypgdir` has `NPDENTRIES = 1024` slots; slot 0 and slot
`KERNBASE >> PDXSHIFT = 512` hold `PTE_P | PTE_W | PTE_PS = 0x083`, every other
slot is 0, so exactly two slots are non-zero; the value 0x083 has the present,
writeable and 4 MB page bits set and physical base 0. -/
theorem entrypgdir_slots :
    entrypgdir.length = NPDENTRIES ∧ NPDENTRIES = 1024 ∧ KERNBASE >>> PDXSHIFT = 512 ∧
    ((0) ||| PTE_P ||| PTE_W ||| PTE_PS) = 0x083 ∧
    (∀ i, i < 1024 → entrypgdir.getD i 0 = if i = 0 ∨ i = 512 then 0x083 else 0) ∧
    (entrypgdir.filter (fun v => v ≠ 0)).length = 2 ∧
    0x083 &&& PTE_P = PTE_P ∧ 0x083 &&& PTE_W = PTE_W ∧ 0x083 &&& PTE_PS = PTE_PS ∧
    0x083 >>> PDXSHIFT = 0 := by
  refine ⟨by decide, rfl, by decide, by decide, ?_, by decide, by decide, by decide,
    by decide, by decide⟩
  intro i hi
  have hk : KERNBASE >>> PDXSHIFT = 512 := by decide
  have hv : ((0) ||| PTE_P ||| PTE_W ||| PTE_PS) = 0x083 := by decide
  simp only [entrypgdir, hk, hv, List.getD_eq_getElem?_getD, List.getElem?_set,
    List.length_set, List.length_replicate, List.getElem?_replicate, NPDENTRIES]
  by_cases h0 : i = 0
  · subst h0
    simp
  · by_cases h1 : i = 512
    · subst h1
      simp
    · have h2 : ¬ (512 = i) := fun h => h1 h.symm
      have h3 : ¬ (0 = i) := fun h => h0 h.symm
      simp [h0, h1, h2, h3, hi]

end Xv6
